import Mathlib

/-
  Verification development for the ti-radar analytics service.

  The deterministic kernels of the repository are embedded shallowly:
  Python floats are modelled by exact rationals (ℚ), Python ints by ℤ/ℕ,
  Python lists by Lean lists, Python dicts by association lists in
  insertion order, and fallible code by `Option`/`Except`.  Each
  definition mirrors one function of the source tree
  (`src/ti_radar/domain/...`, `src/ti_radar/infrastructure/...`).
-/

namespace TiRadar

/-- Round-half-to-even on rationals, the rounding rule of Python's
built-in `round`: nearest integer, ties go to the even neighbour. -/
def pyRoundHalfEven (q : ℚ) : ℤ :=
  if q - ⌊q⌋ < 1/2 then ⌊q⌋
  else if 1/2 < q - ⌊q⌋ then ⌊q⌋ + 1
  else if ⌊q⌋ % 2 = 0 then ⌊q⌋ else ⌊q⌋ + 1

/-- Python `round(x, d)` for `d ≥ 0`, on exact rationals. -/
def pyRound (q : ℚ) (d : ℕ) : ℚ :=
  (pyRoundHalfEven (q * (10 : ℚ) ^ d) : ℚ) / (10 : ℚ) ^ d

/-- Stable insertion of `a` into `l`: `a` is placed before the first
element `b` with `le a b`.  Together with `sortLe` this realises the
semantics of Python's stable `sorted`. -/
def insertLe {α : Type} (le : α → α → Bool) (a : α) : List α → List α
  | [] => [a]
  | b :: l => if le a b then a :: b :: l else b :: insertLe le a l

/-- Stable sort by the Boolean preorder `le` (Python `sorted` semantics:
ties keep their original relative order). -/
def sortLe {α : Type} (le : α → α → Bool) : List α → List α
  | [] => []
  | a :: l => insertLe le a (sortLe le l)

/- ----------------------------------------------------------------
   domain/metrics.py
---------------------------------------------------------------- -/

/-- `hhi_index` from `domain/metrics.py`: Herfindahl-Hirschman index,
`sum(share_i^2) * 10000`, and `0.0` for the empty list. -/
def hhi_index (shares : List ℚ) : ℚ :=
  if shares = [] then 0 else ((shares.map fun s => s * s).sum) * 10000

/-- `hhi_concentration_level` from `domain/metrics.py`. -/
def hhi_concentration_level (hhi : ℚ) : String × String :=
  if hhi < 1500 then ("Low", "Gering")
  else if hhi < 2500 then ("Moderate", "Moderat")
  else ("High", "Hoch")

/-- `yoy_growth` from `domain/metrics.py`: percentage change against the
previous year, `None` when the previous year is 0, otherwise
`round(((current - previous) / previous) * 100, 1)`. -/
def yoy_growth (current previous : ℤ) : Option ℚ :=
  if previous = 0 then none
  else some (pyRound (((current : ℚ) - (previous : ℚ)) / (previous : ℚ) * 100) 1)

/- ----------------------------------------------------------------
   domain/research_metrics.py
---------------------------------------------------------------- -/

/-- The scan of `_compute_h_index`: walk the descending-sorted citation
list with running index `i` (0-based); while the current entry is
`≥ i + 1` keep going, otherwise stop and return `i` (which equals the
`h` accumulator of the Python loop at the break). -/
def hIndexLoop : List ℤ → ℕ → ℕ
  | [], i => i
  | c :: rest, i => if (i : ℤ) + 1 ≤ c then hIndexLoop rest (i + 1) else i

/-- `_compute_h_index` from `domain/research_metrics.py`: sort citation
counts descending (`sorted(citations, reverse=True)`) and scan. -/
def _compute_h_index (citations : List ℤ) : ℕ :=
  hIndexLoop (sortLe (fun a b => decide (b ≤ a)) citations) 0

/- ----------------------------------------------------------------
   domain/scurve.py

   The bounded least-squares call (`scipy.optimize.curve_fit`) and the
   quantities derived from its result inside each `try` block are
   floating-point optimisation; they are abstracted as an oracle that
   returns the fitted dictionary, or `none` when the fit raises
   (fails to converge).  The guard clauses that run before the `try`
   block are embedded concretely from the source.
---------------------------------------------------------------- -/

/-- Result dictionary of a single S-curve fit (the fields of the dict
returned by `fit_s_curve` / `fit_gompertz`). -/
structure SCurveFit where
  L : ℚ
  k : ℚ
  x0 : ℚ
  r_squared : ℚ
  maturity_percent : ℚ
  model : String
deriving DecidableEq

/-- Oracle type standing for the optimisation inside the `try` block of
a fit function: `none` models an exception (failure to converge). -/
def FitOracle : Type := List ℤ → List ℤ → Option SCurveFit

/-- `fit_s_curve` from `domain/scurve.py`: `None` when fewer than 3
points are given or the last cumulative value is `≤ 0`; otherwise the
outcome of the bounded least-squares fit (abstracted by `opt`). -/
def fit_s_curve (opt : FitOracle) (years cumulative : List ℤ) : Option SCurveFit :=
  if years.length < 3 ∨ cumulative.length < 3 then none
  else if (cumulative.getLast?).getD 0 ≤ 0 then none
  else opt years cumulative

/-- `fit_gompertz` from `domain/scurve.py`: identical guard structure to
`fit_s_curve`, with its own optimisation oracle. -/
def fit_gompertz (opt : FitOracle) (years cumulative : List ℤ) : Option SCurveFit :=
  if years.length < 3 ∨ cumulative.length < 3 then none
  else if (cumulative.getLast?).getD 0 ≤ 0 then none
  else opt years cumulative

/-- `fit_best_model` from `domain/scurve.py`: fit both models; if both
fail return `None`; if one fails return the other; otherwise return the
Gompertz result exactly when its R² is strictly larger. -/
def fit_best_model (optL optG : FitOracle) (years cumulative : List ℤ) :
    Option SCurveFit :=
  match fit_s_curve optL years cumulative, fit_gompertz optG years cumulative with
  | none, none => none
  | none, some g => some g
  | some l, none => some l
  | some l, some g => if l.r_squared < g.r_squared then some g else some l

/- ----------------------------------------------------------------
   infrastructure/repositories: get_last_full_year

   Both repositories read `MAX(publication_date)` / `MAX(start_date)`
   and post-process the resulting string identically:
   `int(s[:4])`, `int(s[5:7])`, return year if month >= 11 else
   year - 1, and `None` when the row is missing or `int()` raises.
   The computation is embedded as a pure function of the optional
   max-date string.
---------------------------------------------------------------- -/

/-- ASCII whitespace accepted by Python's `int(str)` stripping
(space, tab, newline, carriage return, vertical tab, form feed). -/
def isPySpace (c : Char) : Bool :=
  c = ' ' || c = '\t' || c = '\n' || c = '\r' ||
  c = Char.ofNat 11 || c = Char.ofNat 12

/-- Decimal digit test. -/
def isDigitChar (c : Char) : Bool := decide ('0' ≤ c) && decide (c ≤ '9')

/-- Tail of a valid Python integer literal body: digits, with single
underscores allowed only between digits. -/
def intBodyTail : List Char → Bool
  | [] => true
  | '_' :: c :: rest => isDigitChar c && intBodyTail rest
  | '_' :: [] => false
  | c :: rest => isDigitChar c && intBodyTail rest

/-- Valid Python integer literal body (after sign): nonempty, starts
with a digit, underscores only between digits. -/
def intBody : List Char → Bool
  | [] => false
  | c :: rest => isDigitChar c && intBodyTail rest

/-- Value of a digit/underscore string (underscores already removed). -/
def digitsVal (l : List Char) : ℕ :=
  l.foldl (fun acc c => 10 * acc + (c.toNat - '0'.toNat)) 0

/-- Model of Python `int(s)` on strings: strip whitespace, allow an
optional sign, then a digit body with single underscores between
digits; `none` when `int()` would raise `ValueError`. -/
def pyInt (s : String) : Option ℤ :=
  let l := ((s.data.dropWhile isPySpace).reverse.dropWhile isPySpace).reverse
  match l with
  | '+' :: rest =>
      if intBody rest then some ((digitsVal (rest.filter fun c => decide (c ≠ '_'))) : ℤ)
      else none
  | '-' :: rest =>
      if intBody rest then some (-((digitsVal (rest.filter fun c => decide (c ≠ '_'))) : ℤ))
      else none
  | _ =>
      if intBody l then some ((digitsVal (l.filter fun c => decide (c ≠ '_'))) : ℤ)
      else none

/-- Python slice `s[a:b]` for `0 ≤ a ≤ b` (clamped at the ends). -/
def pySlice (s : String) (a b : ℕ) : String :=
  ⟨(s.data.drop a).take (b - a)⟩

/-- `get_last_full_year` of `patent_repo.py` / `cordis_repo.py`, viewed
as a pure function of the store's maximum date string (`none` when no
dated record exists): parse `s[:4]` as the year and `s[5:7]` as the
month; on success return the year when the month is `≥ 11` and
`year - 1` otherwise; `none` when either `int()` raises. -/
def get_last_full_year (maxDate : Option String) : Option ℤ :=
  match maxDate with
  | none => none
  | some s =>
      match pyInt (pySlice s 0 4), pyInt (pySlice s 5 7) with
      | some y, some m => some (if 11 ≤ m then y else y - 1)
      | some _, none => none
      | none, _ => none

/- ----------------------------------------------------------------
   domain/cpc_flow.py

   A patent's CPC code set is modelled as a list of codes.  Every
   counting function below depends only on membership in that list, so
   the model agrees with Python's set semantics irrespective of
   duplicates or order.  Dicts keyed by insertion order are modelled by
   association lists in the same order.
---------------------------------------------------------------- -/

/-- Document frequency of a code: the number of patents whose code set
contains `c` (the value `code_counter[c]`). -/
def codeCount (ps : List (List String)) (c : String) : ℕ :=
  (ps.filter fun p => decide (c ∈ p)).length

/-- Number of patents carrying both codes: `pair_counts[(a, b)]`, and
also `|P(a) ∩ P(b)|` for the patent-id sets `P`. -/
def pairCount (ps : List (List String)) (a b : String) : ℕ :=
  (ps.filter fun p => decide (a ∈ p) && decide (b ∈ p)).length

/-- Number of patents carrying at least one of the two codes:
`len(code_patent_sets[a] | code_patent_sets[b])`. -/
def unionCount (ps : List (List String)) (a b : String) : ℕ :=
  (ps.filter fun p => decide (a ∈ p) || decide (b ∈ p)).length

/-- Codes in order of first occurrence: the key insertion order of
`code_counter` under the canonical iteration of the patent list. -/
def firstOccs (l : List String) : List String :=
  l.foldl (fun acc c => if c ∈ acc then acc else acc ++ [c]) []

/-- `Counter.most_common()`: all codes, stably sorted by document
frequency descending (CPython sorts by count descending with ties in
insertion order). -/
def most_common (ps : List (List String)) : List String :=
  sortLe (fun a b => decide (codeCount ps b ≤ codeCount ps a)) (firstOccs ps.flatten)

/-- The `n × n` zero matrix `[[0.0] * n for _ in range(n)]`. -/
def zeroMatrix (n : ℕ) : List (List ℚ) :=
  List.replicate n (List.replicate n (0 : ℚ))

/-- Entry read `m[i][j]` (all reads in the source are in bounds). -/
def getEntry (m : List (List ℚ)) (i j : ℕ) : ℚ :=
  (m.getD i []).getD j 0

/-- Entry write `m[i][j] = v` (all writes in the source are in bounds). -/
def setEntry (m : List (List ℚ)) (i j : ℕ) (v : ℚ) : List (List ℚ) :=
  m.set i ((m.getD i []).set j v)

/-- One loop iteration of the matrix-filling loops: write the value at
`(a, b)` and symmetrically at `(b, a)`. -/
def write2 (m : List (List ℚ)) (w : ℕ × ℕ × ℚ) : List (List ℚ) :=
  setEntry (setEntry m w.1 w.2.1 w.2.2) w.2.1 w.1 w.2.2

/-- The matrix-filling loop: perform every symmetric write in order. -/
def writePairs (m : List (List ℚ)) (ws : List (ℕ × ℕ × ℚ)) : List (List ℚ) :=
  ws.foldl write2 m

/-- All index pairs `(a, b)` with `a < b < n`.  The keys of
`pair_counts` are exactly such pairs; since distinct keys write
disjoint cell sets, iterating them in canonical order instead of dict
insertion order leaves the final matrix and the connection count
unchanged. -/
def indexPairs (n : ℕ) : List (ℕ × ℕ) :=
  ((List.range n).map fun a =>
    ((List.range n).filter fun b => decide (a < b)).map fun b => (a, b)).flatten

/-- The writes performed by the Jaccard loop of `build_cooccurrence`:
pairs with a zero co-occurrence count are skipped (`continue`); the
written value is `round(count / union_size, 4)` with the `union_size
> 0` guard of the source. -/
def coocWrites (ps : List (List String)) (tc : List String) : List (ℕ × ℕ × ℚ) :=
  (indexPairs tc.length).filterMap fun ab =>
    let a := tc.getD ab.1 ""
    let b := tc.getD ab.2 ""
    let cnt := pairCount ps a b
    if cnt < 1 then none
    else
      let u := unionCount ps a b
      some (ab.1, ab.2, pyRound (if 0 < u then (cnt : ℚ) / (u : ℚ) else 0) 4)

/-- `build_cooccurrence` from `domain/cpc_flow.py`: rank codes by
document frequency, keep the top `top_n`; with fewer than two top codes
return the empty matrix; otherwise fill the zero matrix with the
symmetric rounded Jaccard writes.  Returns
`(labels, jaccard_matrix, total_connections)`. -/
def build_cooccurrence (ps : List (List String)) (top_n : ℕ) :
    List String × List (List ℚ) × ℕ :=
  let top_codes := (most_common ps).take top_n
  if top_codes.length < 2 then (top_codes, [], 0)
  else
    let ws := coocWrites ps top_codes
    (top_codes, writePairs (zeroMatrix top_codes.length) ws, ws.length)

/-- The dict `code_index = {code: i for i, code in enumerate(top_codes)}`
as a lookup: the **last** index of `c` wins, as in a Python dict
comprehension. -/
def lastIdx (tc : List String) (c : String) : Option ℕ :=
  ((List.range tc.length).filter fun i => decide (tc.getD i "" = c)).getLast?

/-- `code_counts.get(c, 0)` for the SQL aggregate dict (unique keys). -/
def lookupCount (cc : List (String × ℕ)) (c : String) : ℕ :=
  (cc.lookup c).getD 0

/-- The writes performed by `build_jaccard_from_sql`: skip zero
co-counts and pairs with an unknown code; value
`round(co / (count_a + count_b - co), 4)` with the `union > 0` guard. -/
def sqlWrites (top_codes : List String) (code_counts : List (String × ℕ))
    (pair_counts : List (String × String × ℕ)) : List (ℕ × ℕ × ℚ) :=
  pair_counts.filterMap fun p =>
    if p.2.2 < 1 then none
    else
      match lastIdx top_codes p.1, lastIdx top_codes p.2.1 with
      | some ia, some ib =>
          let ca := lookupCount code_counts p.1
          let cb := lookupCount code_counts p.2.1
          let u : ℤ := (ca : ℤ) + (cb : ℤ) - (p.2.2 : ℤ)
          some (ia, ib, pyRound (if 0 < u then (p.2.2 : ℚ) / (u : ℚ) else 0) 4)
      | _, _ => none

/-- `build_jaccard_from_sql` from `domain/cpc_flow.py`: build the
Jaccard matrix from SQL aggregates.  Returns
`(jaccard_matrix, total_connections)`. -/
def build_jaccard_from_sql (top_codes : List String)
    (code_counts : List (String × ℕ))
    (pair_counts : List (String × String × ℕ)) : List (List ℚ) × ℕ :=
  if top_codes.length < 2 then ([], 0)
  else
    let ws := sqlWrites top_codes code_counts pair_counts
    (writePairs (zeroMatrix top_codes.length) ws, ws.length)

/- ----------------------------------------------------------------
   domain/sampling.py

   Deterministic year-stratified sampling.  Python dicts (insertion
   ordered, unique keys) are modelled by association lists built in the
   same order; `math.floor` on a float quotient is modelled by ⌊·⌋ on
   the exact rational quotient.
---------------------------------------------------------------- -/

/-- An element of `patent_data`: a `(cpc_code_set, year)` tuple. -/
abbrev PItem : Type := List String × ℤ

/-- `StratumInfo` dataclass from `domain/sampling.py`. -/
structure StratumInfo where
  population_count : ℕ
  sample_count : ℕ
  is_census : Bool
deriving DecidableEq

/-- `SamplingResult` dataclass from `domain/sampling.py`. -/
structure SamplingResult where
  sampled_data : List PItem
  population_size : ℕ
  sample_size : ℕ
  sampling_fraction : ℚ
  strata_info : List (ℤ × StratumInfo)
  was_sampled : Bool
deriving DecidableEq

/-- `DEFAULT_SAMPLE_SIZE` from `domain/sampling.py`. -/
def DEFAULT_SAMPLE_SIZE : ℤ := 10000

/-- `CENSUS_THRESHOLD` from `domain/sampling.py`. -/
def CENSUS_THRESHOLD : ℕ := 5

/-- One step of `_group_by_year`'s loop: `groups[year].append(idx)` on
a `defaultdict(list)` — append to the existing group of `y`, or create
a new group at the end (dict insertion order). -/
def addToGroup (gs : List (ℤ × List ℕ)) (y : ℤ) (i : ℕ) : List (ℤ × List ℕ) :=
  if gs.any fun g => decide (g.1 = y) then
    gs.map fun g => if g.1 = y then (g.1, g.2 ++ [i]) else g
  else gs ++ [(y, [i])]

/-- Tail-recursive form of the `enumerate(patent_data)` loop of
`_group_by_year`, carrying the running index. -/
def groupAux : List PItem → ℕ → List (ℤ × List ℕ) → List (ℤ × List ℕ)
  | [], _, gs => gs
  | item :: rest, idx, gs => groupAux rest (idx + 1) (addToGroup gs item.2 idx)

/-- `_group_by_year` from `domain/sampling.py`: indices of
`patent_data` grouped by publication year, keys in first-occurrence
order, indices ascending within each group. -/
def _group_by_year (patent_data : List PItem) : List (ℤ × List ℕ) :=
  groupAux patent_data 0 []

/-- Sum of the values of an integer-valued association list. -/
def sumVals (l : List (ℤ × ℕ)) : ℕ := (l.map (·.2)).sum

/-- Total size of the census strata (`size ≤ census_threshold`). -/
def censusTotalOf (sizes : List (ℤ × ℕ)) (threshold : ℕ) : ℕ :=
  sumVals (sizes.filter fun s => decide (s.2 ≤ threshold))

/-- Total size of the non-census strata. -/
def nonCensusTotalOf (sizes : List (ℤ × ℕ)) (threshold : ℕ) : ℕ :=
  sumVals (sizes.filter fun s => decide (¬ s.2 ≤ threshold))

/-- Allocation of the branch in which census strata alone fill (or
overflow) the whole sample: census strata in full, other strata
`min(1, size)` if any target remains else `0`. -/
def allocCensusOverride (sizes : List (ℤ × ℕ)) (threshold : ℕ)
    (remaining : ℤ) : List (ℤ × ℕ) :=
  sizes.map fun s =>
    if s.2 ≤ threshold then (s.1, s.2)
    else (s.1, if 0 < remaining then min 1 s.2 else 0)

/-- The exact proportional quota `remaining_target * size /
non_census_total` of one stratum. -/
def exactQuota (remaining : ℤ) (sz nct : ℕ) : ℚ :=
  (remaining : ℚ) * (sz : ℚ) / (nct : ℚ)

/-- `floored = min(math.floor(exact), size)` of one stratum. -/
def flooredQuota (remaining : ℤ) (sz nct : ℕ) : ℕ :=
  min (⌊exactQuota remaining sz nct⌋.toNat) sz

/-- The pre-correction allocation: census strata in full, non-census
strata their floored quota. -/
def allocFloored (sizes : List (ℤ × ℕ)) (threshold : ℕ) (remaining : ℤ)
    (nct : ℕ) : List (ℤ × ℕ) :=
  sizes.map fun s =>
    if s.2 ≤ threshold then (s.1, s.2)
    else (s.1, flooredQuota remaining s.2 nct)

/-- The `remainders` list: `(year, exact - floored)` for every
non-census stratum, in stratum order. -/
def remaindersOf (sizes : List (ℤ × ℕ)) (threshold : ℕ) (remaining : ℤ)
    (nct : ℕ) : List (ℤ × ℚ) :=
  sizes.filterMap fun s =>
    if s.2 ≤ threshold then none
    else some (s.1, exactQuota remaining s.2 nct - (flooredQuota remaining s.2 nct : ℚ))

/-- `allocation[year]` (the keys looked up are always present). -/
def lookupAlloc (l : List (ℤ × ℕ)) (y : ℤ) : ℕ := (l.lookup y).getD 0

/-- `allocation[year] += 1`. -/
def bumpAlloc (l : List (ℤ × ℕ)) (y : ℤ) : List (ℤ × ℕ) :=
  l.map fun p => if p.1 = y then (p.1, p.2 + 1) else p

/-- The largest-remainder correction loop: walk the sorted remainders;
stop when the deficit is gone; give one extra unit to a stratum only if
its allocation is still below its population. -/
def distributeDeficit (sizes : List (ℤ × ℕ)) :
    List (ℤ × ℕ) → List (ℤ × ℚ) → ℤ → List (ℤ × ℕ)
  | alloc, [], _ => alloc
  | alloc, r :: rest, deficit =>
    if deficit ≤ 0 then alloc
    else if lookupAlloc alloc r.1 < lookupAlloc sizes r.1 then
      distributeDeficit sizes (bumpAlloc alloc r.1) rest (deficit - 1)
    else distributeDeficit sizes alloc rest deficit

/-- `_allocate_proportional` from `domain/sampling.py`. -/
def _allocate_proportional (strata_sizes : List (ℤ × ℕ)) (target_size : ℤ)
    (census_threshold : ℕ) : List (ℤ × ℕ) :=
  let census_total := censusTotalOf strata_sizes census_threshold
  let remaining_target : ℤ := target_size - (census_total : ℤ)
  let non_census_total := nonCensusTotalOf strata_sizes census_threshold
  if remaining_target ≤ 0 ∨ non_census_total = 0 then
    allocCensusOverride strata_sizes census_threshold remaining_target
  else
    let alloc := allocFloored strata_sizes census_threshold remaining_target non_census_total
    let rem := sortLe (fun a b => decide (b.2 ≤ a.2))
      (remaindersOf strata_sizes census_threshold remaining_target non_census_total)
    let deficit : ℤ := target_size - (sumVals alloc : ℤ)
    distributeDeficit strata_sizes alloc rem deficit

/-- `_systematic_select` from `domain/sampling.py`: midpoint-start
systematic selection; `int()` on the non-negative float position is
modelled by `⌊·⌋.toNat` on the exact rational position. -/
def _systematic_select (indices : List ℕ) (n : ℕ) : List ℕ :=
  let total := indices.length
  if total ≤ n then indices
  else if n = 0 then []
  else
    let step : ℚ := (total : ℚ) / (n : ℚ)
    let start : ℚ := step / 2
    (List.range n).map fun (i : ℕ) =>
      indices.getD (⌊start + (i : ℚ) * step⌋).toNat 0

/-- The `strata_info` of the trivial (no-reduction) branch. -/
def strataInfoTrivial (strata : List (ℤ × List ℕ)) : List (ℤ × StratumInfo) :=
  strata.map fun g => (g.1, ⟨g.2.length, g.2.length, true⟩)

/-- `stratified_sample` from `domain/sampling.py`.  `ValueError` is
modelled by `Except.error`; every other path returns `Except.ok`. -/
def stratified_sample (patent_data : List PItem) (target_size : ℤ)
    (census_threshold : ℕ) : Except String SamplingResult :=
  if target_size < 1 then .error "target_size muss >= 1 sein"
  else
    let population_size := patent_data.length
    if (population_size : ℤ) ≤ target_size then
      .ok { sampled_data := patent_data
            population_size := population_size
            sample_size := population_size
            sampling_fraction := 1
            strata_info := strataInfoTrivial (_group_by_year patent_data)
            was_sampled := false }
    else
      let strata := _group_by_year patent_data
      let allocation := _allocate_proportional
        (strata.map fun g => (g.1, g.2.length)) target_size census_threshold
      let sorted_years := sortLe (fun a b => decide (a ≤ b)) (strata.map (·.1))
      let selected := (sorted_years.map fun y =>
        let indices := (strata.lookup y).getD []
        let n_h := lookupAlloc allocation y
        if indices.length ≤ n_h then indices
        else _systematic_select indices n_h).flatten
      let sampled := selected.map fun i => patent_data.getD i ([], 0)
      .ok { sampled_data := sampled
            population_size := population_size
            sample_size := sampled.length
            sampling_fraction := (sampled.length : ℚ) / (population_size : ℚ)
            strata_info := sorted_years.map fun y =>
              let indices := (strata.lookup y).getD []
              let n_h := lookupAlloc allocation y
              (y, (⟨indices.length, n_h, decide (indices.length ≤ n_h)⟩ : StratumInfo))
            was_sampled := true }

/-- Boolean observation of whether an `Except` computation raised. -/
def raisesError {ε α : Type} : Except ε α → Bool
  | .error _ => true
  | .ok _ => false

/-- Exact Jaccard value of a code pair over the patent list:
`|P(a) ∩ P(b)| / |P(a) ∪ P(b)|` with `P(c)` the set of patents carrying
`c`, and 0 for an empty union. -/
def jaccardQ (ps : List (List String)) (a b : String) : ℚ :=
  if 0 < unionCount ps a b then (pairCount ps a b : ℚ) / (unionCount ps a b : ℚ)
  else 0

/-- Exact Jaccard value from the SQL aggregates for the pair `p`:
`co / (count_a + count_b - co)`, and 0 for a non-positive union. -/
def sqlJaccardOf (code_counts : List (String × ℕ)) (p : String × String × ℕ) : ℚ :=
  let u : ℤ := (lookupCount code_counts p.1 : ℤ) +
    (lookupCount code_counts p.2.1 : ℤ) - (p.2.2 : ℤ)
  if 0 < u then (p.2.2 : ℚ) / (u : ℚ) else 0

/-- The proposition that `m` is an `n × n` matrix. -/
def DimsP (m : List (List ℚ)) (n : ℕ) : Prop :=
  m.length = n ∧ ∀ row ∈ m, row.length = n

/-- Whether the symmetric write `w` touches the cell `(i, j)`. -/
def touchesB (w : ℕ × ℕ × ℚ) (i j : ℕ) : Bool :=
  (decide (w.1 = i) && decide (w.2.1 = j)) || (decide (w.1 = j) && decide (w.2.1 = i))

/-- Value of the last write in `ws` that touches the cell `(i, j)`. -/
def lastTouch (ws : List (ℕ × ℕ × ℚ)) (i j : ℕ) : Option ℚ :=
  ((ws.filter fun w => touchesB w i j).getLast?).map fun w => w.2.2

/-- Whether the SQL aggregate pair `p` resolves onto the cell `(i, j)`
(in either orientation) and has a positive co-count. -/
def sqlTouches (top_codes : List String) (p : String × String × ℕ) (i j : ℕ) : Prop :=
  1 ≤ p.2.2 ∧ ((lastIdx top_codes p.1 = some i ∧ lastIdx top_codes p.2.1 = some j) ∨
    (lastIdx top_codes p.1 = some j ∧ lastIdx top_codes p.2.1 = some i))

/-- Sample size of a sampling outcome (0 when it raised). -/
def sampleSizeOf (r : Except String SamplingResult) : ℕ :=
  match r with
  | .ok s => s.sample_size
  | .error _ => 0

/-- Total size of the census strata of a population, as grouped by
`_group_by_year`: the strata with at most `threshold` elements. -/
def censusAllocationOf (patent_data : List PItem) (threshold : ℕ) : ℕ :=
  censusTotalOf ((_group_by_year patent_data).map fun g => (g.1, g.2.length)) threshold

/-- Keys of a year-keyed association list. -/
def keysOf {β : Type} (l : List (ℤ × β)) : List ℤ := l.map (·.1)

/-- Total number of indices held by a list of year groups. -/
def sumSizes (gs : List (ℤ × List ℕ)) : ℕ := (gs.map (·.2.length)).sum

/- ----------------------------------------------------------------
   Generic lemmas about the stable sort and about list sums.
---------------------------------------------------------------- -/

theorem insertLe_perm {α : Type} (le : α → α → Bool) (a : α) (l : List α) :
    (insertLe le a l).Perm (a :: l) := by
  induction l with
  | nil => simp [insertLe]
  | cons b t ih =>
    by_cases h : le a b
    · simp [insertLe, h]
    · simp only [insertLe, h, Bool.false_eq_true, if_false]
      exact (ih.cons b).trans (List.Perm.swap a b t)

theorem sortLe_perm {α : Type} (le : α → α → Bool) (l : List α) :
    (sortLe le l).Perm l := by
  induction l with
  | nil => simp [sortLe]
  | cons a t ih => exact (insertLe_perm le a (sortLe le t)).trans (ih.cons a)

theorem sortLe_length {α : Type} (le : α → α → Bool) (l : List α) :
    (sortLe le l).length = l.length :=
  (sortLe_perm le l).length_eq

theorem insertLe_sorted {α : Type} (le : α → α → Bool)
    (htot : ∀ a b, le a b = true ∨ le b a = true)
    (htrans : ∀ a b c, le a b = true → le b c = true → le a c = true)
    (a : α) (l : List α)
    (hl : l.Pairwise fun x y => le x y = true) :
    (insertLe le a l).Pairwise fun x y => le x y = true := by
  induction l with
  | nil => simp [insertLe]
  | cons b t ih =>
    rcases hl with _ | ⟨hb, ht⟩
    by_cases h : le a b
    · simp only [insertLe, h, if_true]
      refine List.Pairwise.cons ?_ (List.Pairwise.cons hb ht)
      intro x hx
      rcases List.mem_cons.mp hx with rfl | hx
      · exact h
      · exact htrans a b x h (hb x hx)
    · simp only [insertLe, h, Bool.false_eq_true, if_false]
      refine List.Pairwise.cons ?_ (ih ht)
      intro x hx
      have hx' := (insertLe_perm le a t).mem_iff.mp hx
      rcases List.mem_cons.mp hx' with rfl | hx'
      · rcases htot x b with hxb | hbx
        · exact False.elim (h hxb)
        · exact hbx
      · exact hb x hx'

theorem sortLe_sorted {α : Type} (le : α → α → Bool)
    (htot : ∀ a b, le a b = true ∨ le b a = true)
    (htrans : ∀ a b c, le a b = true → le b c = true → le a c = true)
    (l : List α) :
    (sortLe le l).Pairwise fun x y => le x y = true := by
  induction l with
  | nil => simp [sortLe]
  | cons a t ih => exact insertLe_sorted le htot htrans a (sortLe le t) ih

theorem sum_eq_zero_of_all_zero (l : List ℚ) (h : ∀ x ∈ l, x = 0) :
    l.sum = 0 := by
  induction l with
  | nil => simp
  | cons a t ih =>
    simp only [List.sum_cons, h a (by simp), ih fun x hx => h x (by simp [hx])]
    simp

theorem sum_sq_zero (l : List ℚ) (hz : ∀ x ∈ l, x = 0) :
    (l.map fun s => s * s).sum = 0 := by
  refine sum_eq_zero_of_all_zero _ ?_
  intro x hx
  rcases List.mem_map.mp hx with ⟨s, hs, rfl⟩
  simp [hz s hs]

theorem sum_map_sub_q {α : Type} (l : List α) (f g : α → ℚ) :
    (l.map fun x => f x - g x).sum = (l.map f).sum - (l.map g).sum := by
  induction l with
  | nil => simp
  | cons a t ih =>
    simp only [List.map_cons, List.sum_cons, ih]
    ring

theorem sum_eq_zero_mem {l : List ℚ} (h0 : ∀ x ∈ l, 0 ≤ x) (hs : l.sum = 0) :
    ∀ x ∈ l, x = 0 := by
  induction l with
  | nil => simp
  | cons a t ih =>
    simp only [List.sum_cons] at hs
    have ha : 0 ≤ a := h0 a (by simp)
    have ht : 0 ≤ t.sum := List.sum_nonneg fun x hx => h0 x (by simp [hx])
    have ha0 : a = 0 := by linarith
    have hts : t.sum = 0 := by linarith
    intro x hx
    rcases List.mem_cons.mp hx with rfl | hx
    · exact ha0
    · exact ih (fun x hx => h0 x (by simp [hx])) hts x hx

/- ----------------------------------------------------------------
   Claim C3 — HHI bounds.
---------------------------------------------------------------- -/

/-- Claim C3, counterexample: the claim quantifies over every list
whose shares all lie in [0, 1]; the list `[1, 1]` satisfies that
hypothesis (both shares are 1), yet `hhi_index [1, 1] = 20000`, which
lies outside `[0, 10000]`. -/
theorem C3_hhi_counterexample :
    hhi_index [1, 1] = 20000 ∧ ¬ hhi_index [1, 1] ≤ 10000 := by
  have h : hhi_index [1, 1] = 20000 := by
    rw [hhi_index, if_neg (by simp)]
    norm_num
  exact ⟨h, by rw [h]; norm_num⟩

/-- Claim C3, amended: for every list of shares, each in [0, 1] and
with total at most 1, `hhi_index` lies in `[0, 10000]`, and equals
10000 iff one share is 1. -/
theorem C3_hhi_bounds (shares : List ℚ) (hmem : ∀ s ∈ shares, 0 ≤ s ∧ s ≤ 1)
    (hsum : shares.sum ≤ 1) :
    0 ≤ hhi_index shares ∧ hhi_index shares ≤ 10000 ∧
      (hhi_index shares = 10000 ↔ (1 : ℚ) ∈ shares) := by
  by_cases hnil : shares = []
  · subst hnil
    refine ⟨by norm_num [hhi_index], by norm_num [hhi_index], ?_⟩
    constructor
    · intro h
      norm_num [hhi_index] at h
    · intro h
      simp at h
  · have hval : hhi_index shares = ((shares.map fun s => s * s).sum) * 10000 := by
      simp [hhi_index, hnil]
    have hsqnn : ∀ x ∈ shares.map fun s => s * s, (0 : ℚ) ≤ x := by
      intro x hx
      rcases List.mem_map.mp hx with ⟨s, _, rfl⟩
      exact mul_self_nonneg s
    have hS2nn : (0 : ℚ) ≤ (shares.map fun s => s * s).sum :=
      List.sum_nonneg hsqnn
    have hS2le : (shares.map fun s => s * s).sum ≤ shares.sum := by
      have h := List.sum_le_sum (l := shares) (f := fun s => s * s) (g := fun s => s)
        (fun s hs => mul_le_of_le_one_left (hmem s hs).1 (hmem s hs).2)
      simpa using h
    refine ⟨by nlinarith, by nlinarith, ?_, ?_⟩
    · intro h
      have hS2 : (shares.map fun s => s * s).sum = 1 := by
        rw [hval] at h
        linarith
      have hsum1 : shares.sum = 1 := le_antisymm hsum (by linarith)
      have hzero : (shares.map fun s => s - s * s).sum = 0 := by
        rw [sum_map_sub_q shares (fun s => s) (fun s => s * s)]
        simp [hS2, hsum1]
      have hterms : ∀ x ∈ shares.map fun s => s - s * s, x = 0 := by
        refine sum_eq_zero_mem ?_ hzero
        intro x hx
        rcases List.mem_map.mp hx with ⟨s, hs, rfl⟩
        nlinarith [(hmem s hs).1, (hmem s hs).2]
      have h01 : ∀ s ∈ shares, s = 0 ∨ s = 1 := by
        intro s hs
        have := hterms (s - s * s) (List.mem_map.mpr ⟨s, hs, rfl⟩)
        have hfac : s * (1 - s) = 0 := by ring_nf; linarith [this]
        rcases mul_eq_zero.mp hfac with h0 | h1
        · exact Or.inl h0
        · exact Or.inr (by linarith)
      by_contra hno
      have hall0 : ∀ s ∈ shares, s = 0 := by
        intro s hs
        rcases h01 s hs with h0 | h1
        · exact h0
        · exact absurd (h1 ▸ hs) hno
      have : shares.sum = 0 := sum_eq_zero_of_all_zero shares hall0
      linarith
    · intro h1
      rcases List.append_of_mem h1 with ⟨l₁, l₂, rfl⟩
      have hs₁ : 0 ≤ l₁.sum :=
        List.sum_nonneg fun x hx => (hmem x (by simp [hx])).1
      have hs₂ : 0 ≤ l₂.sum :=
        List.sum_nonneg fun x hx => (hmem x (by simp [hx])).1
      have hsplit : (l₁ ++ 1 :: l₂).sum = l₁.sum + (1 + l₂.sum) := by
        simp
      have h10 : l₁.sum = 0 := by rw [hsplit] at hsum; linarith
      have h20 : l₂.sum = 0 := by rw [hsplit] at hsum; linarith
      have hz₁ : ∀ x ∈ l₁, x = (0 : ℚ) :=
        sum_eq_zero_mem (fun x hx => (hmem x (by simp [hx])).1) h10
      have hz₂ : ∀ x ∈ l₂, x = (0 : ℚ) :=
        sum_eq_zero_mem (fun x hx => (hmem x (by simp [hx])).1) h20
      have hm₁ : (l₁.map fun s => s * s).sum = 0 := sum_sq_zero l₁ hz₁
      have hm₂ : (l₂.map fun s => s * s).sum = 0 := sum_sq_zero l₂ hz₂
      rw [hval]
      simp [hm₁, hm₂]

/-- Claim C3, witness: the amended theorem applied to the singleton
list `[1]`. -/
theorem C3_hhi_bounds_witness :
    0 ≤ hhi_index [(1 : ℚ)] ∧ hhi_index [(1 : ℚ)] ≤ 10000 ∧
      (hhi_index [(1 : ℚ)] = 10000 ↔ (1 : ℚ) ∈ [(1 : ℚ)]) :=
  C3_hhi_bounds [(1 : ℚ)] (by norm_num) (by norm_num)

/- ----------------------------------------------------------------
   Claim C9 — YoY growth.
---------------------------------------------------------------- -/

/-- Claim C9, counterexample: at `current = 1, previous = 3` the code
returns `round(((1-3)/3)*100, 1) = -66.7`, not the exact value
`((1-3)/3)*100 = -200/3 = -66.666…` stated by the claim. -/
theorem C9_yoy_counterexample :
    yoy_growth 1 3 = some (-667 / 10) ∧
      ((-667 : ℚ) / 10) ≠ (((1 : ℚ) - 3) / 3) * 100 := by
  constructor
  · have hfloor : ⌊((-2000 : ℚ) / 3)⌋ = -667 := by norm_num
    simp only [yoy_growth, pyRound, pyRoundHalfEven]
    norm_num [hfloor]
  · norm_num

/-- Claim C9, amended: `yoy_growth` returns `none` exactly when the
previous count is 0, and otherwise returns
`((current − previous) / previous) · 100` rounded to one decimal place
(Python `round(·, 1)`, half-to-even). -/
theorem C9_yoy_growth (current previous : ℤ) :
    (previous = 0 → yoy_growth current previous = none) ∧
    (yoy_growth current previous = none → previous = 0) ∧
    (previous ≠ 0 → yoy_growth current previous =
      some (pyRound ((((current : ℚ) - (previous : ℚ)) / (previous : ℚ)) * 100) 1)) := by
  refine ⟨fun h => by simp [yoy_growth, h], ?_, fun h => by simp [yoy_growth, h]⟩
  intro h
  by_contra hne
  simp [yoy_growth, hne] at h

/-- Claim C9, witness: the amended theorem applied at
`current = 7, previous = 2`. -/
theorem C9_yoy_growth_witness :
    (2 : ℤ) ≠ 0 ∧ yoy_growth 7 2 =
      some (pyRound ((((7 : ℤ) : ℚ) - ((2 : ℤ) : ℚ)) / ((2 : ℤ) : ℚ) * 100) 1) :=
  ⟨by decide, (C9_yoy_growth 7 2).2.2 (by decide)⟩

/- ----------------------------------------------------------------
   Claim C5 — S-curve ensemble selection and guards.
---------------------------------------------------------------- -/

/-- Claim C5: each individual fit returns `None` whenever fewer than 3
points are given or the last cumulative value is `≤ 0`; `fit_best_model`
returns `None` when both fits fail, the surviving result when exactly
one fails, and otherwise the model with the higher R² (ties go to the
logistic result, whose R² then is the maximum). -/
theorem C5_fit_best_model (optL optG : FitOracle) (years cumulative : List ℤ) :
    ((years.length < 3 ∨ cumulative.length < 3 ∨ (cumulative.getLast?).getD 0 ≤ 0) →
      fit_s_curve optL years cumulative = none ∧
      fit_gompertz optG years cumulative = none) ∧
    (fit_s_curve optL years cumulative = none →
      fit_gompertz optG years cumulative = none →
      fit_best_model optL optG years cumulative = none) ∧
    (∀ g, fit_s_curve optL years cumulative = none →
      fit_gompertz optG years cumulative = some g →
      fit_best_model optL optG years cumulative = some g) ∧
    (∀ l, fit_s_curve optL years cumulative = some l →
      fit_gompertz optG years cumulative = none →
      fit_best_model optL optG years cumulative = some l) ∧
    (∀ l g, fit_s_curve optL years cumulative = some l →
      fit_gompertz optG years cumulative = some g →
      fit_best_model optL optG years cumulative =
        some (if l.r_squared < g.r_squared then g else l) ∧
      (∀ r, fit_best_model optL optG years cumulative = some r →
        r.r_squared = max l.r_squared g.r_squared)) := by
  refine ⟨?_, ?_, ?_, ?_, ?_⟩
  · intro h
    constructor
    · unfold fit_s_curve
      by_cases hc : years.length < 3 ∨ cumulative.length < 3
      · rw [if_pos hc]
      · have hlast : (cumulative.getLast?).getD 0 ≤ 0 := by tauto
        rw [if_neg hc, if_pos hlast]
    · unfold fit_gompertz
      by_cases hc : years.length < 3 ∨ cumulative.length < 3
      · rw [if_pos hc]
      · have hlast : (cumulative.getLast?).getD 0 ≤ 0 := by tauto
        rw [if_neg hc, if_pos hlast]
  · intro hl hg
    simp [fit_best_model, hl, hg]
  · intro g hl hg
    simp [fit_best_model, hl, hg]
  · intro l hl hg
    simp [fit_best_model, hl, hg]
  · intro l g hl hg
    have h1 : fit_best_model optL optG years cumulative =
        some (if l.r_squared < g.r_squared then g else l) := by
      simp only [fit_best_model, hl, hg]
      split <;> rfl
    refine ⟨h1, ?_⟩
    intro r hr
    rw [h1] at hr
    by_cases hlt : l.r_squared < g.r_squared
    · rw [if_pos hlt] at hr
      injection hr with hr
      subst hr
      exact (max_eq_right hlt.le).symm
    · rw [if_neg hlt] at hr
      injection hr with hr
      subst hr
      exact (max_eq_left (not_lt.mp hlt)).symm

/-- Claim C5, witness: both guards trigger on a series whose last
cumulative value is 0, so both fits (with a vacuous oracle) fail. -/
theorem C5_fit_best_model_witness :
    (([(2000 : ℤ), 2001, 2002]).length < 3 ∨ ([(0 : ℤ), 0, 0]).length < 3 ∨
      (([(0 : ℤ), 0, 0]).getLast?).getD 0 ≤ 0) ∧
    (fit_s_curve (fun _ _ => none) [2000, 2001, 2002] [0, 0, 0] = none ∧
      fit_gompertz (fun _ _ => none) [2000, 2001, 2002] [0, 0, 0] = none) :=
  ⟨by decide,
    (C5_fit_best_model (fun _ _ => none) (fun _ _ => none)
      [2000, 2001, 2002] [0, 0, 0]).1 (by decide)⟩

/- ----------------------------------------------------------------
   Claim C4 — last fully covered year.
---------------------------------------------------------------- -/

/-- Claim C4: viewed as a pure function of the store's maximum date
string, the computation returns `none` when no dated record exists;
when the two sliced fields parse as integers `y` (year, `s[:4]`) and
`m` (month, `s[5:7]`) it returns `y` when `m ≥ 11` and `y - 1`
otherwise; and it returns `none` when either field fails to parse
(malformed date). -/
theorem C4_last_full_year (s : String) :
    get_last_full_year none = none ∧
    (∀ y m : ℤ, pyInt (pySlice s 0 4) = some y → pyInt (pySlice s 5 7) = some m →
      get_last_full_year (some s) = some (if 11 ≤ m then y else y - 1)) ∧
    ((pyInt (pySlice s 0 4) = none ∨ pyInt (pySlice s 5 7) = none) →
      get_last_full_year (some s) = none) := by
  refine ⟨rfl, ?_, ?_⟩
  · intro y m hy hm
    simp [get_last_full_year, hy, hm]
  · intro h
    rcases h with h | h
    · simp [get_last_full_year, h]
    · cases hy : pyInt (pySlice s 0 4) <;> simp [get_last_full_year, hy, h]

/-- Claim C4, witness: the max date `2023-08-10` parses to year 2023,
month 8 < 11, so the last fully covered year is 2022. -/
theorem C4_last_full_year_witness :
    pyInt (pySlice "2023-08-10" 0 4) = some 2023 ∧
    pyInt (pySlice "2023-08-10" 5 7) = some 8 ∧
    get_last_full_year (some "2023-08-10") =
      some (if (11 : ℤ) ≤ 8 then 2023 else 2023 - 1) :=
  ⟨by decide, by decide,
    (C4_last_full_year "2023-08-10").2.1 2023 8 (by decide) (by decide)⟩

/- ----------------------------------------------------------------
   Claims C7 and C8 — sampling trivial branch and the ValueError.
---------------------------------------------------------------- -/

/-- Claim C7: when the population fits in the target, the sampler
returns the input unchanged with `was_sampled = false`, sample size
equal to the population size and `sampling_fraction = 1.0`. -/
theorem C7_trivial_sample (patent_data : List PItem) (target_size : ℤ)
    (census_threshold : ℕ) (h1 : 1 ≤ target_size)
    (h2 : (patent_data.length : ℤ) ≤ target_size) :
    stratified_sample patent_data target_size census_threshold =
      .ok { sampled_data := patent_data
            population_size := patent_data.length
            sample_size := patent_data.length
            sampling_fraction := 1
            strata_info := strataInfoTrivial (_group_by_year patent_data)
            was_sampled := false } := by
  have h3 : ¬ target_size < 1 := by omega
  simp [stratified_sample, h3, h2]

/-- Claim C7, witness: a one-patent population with target 5. -/
theorem C7_trivial_sample_witness :
    stratified_sample [(["H01L", "G06N"], 2020)] 5 5 =
      .ok { sampled_data := [(["H01L", "G06N"], 2020)]
            population_size := 1
            sample_size := 1
            sampling_fraction := 1
            strata_info := strataInfoTrivial (_group_by_year [(["H01L", "G06N"], 2020)])
            was_sampled := false } :=
  C7_trivial_sample [(["H01L", "G06N"], 2020)] 5 5 (by decide) (by decide)

/-- Every execution of `stratified_sample` with `target_size ≥ 1`
reaches a `return` statement (no other raise site exists in the model). -/
theorem stratified_sample_ok (patent_data : List PItem) (target_size : ℤ)
    (census_threshold : ℕ) (h1 : 1 ≤ target_size) :
    ∃ r, stratified_sample patent_data target_size census_threshold = .ok r := by
  have h3 : ¬ target_size < 1 := by omega
  have hfalse : raisesError (stratified_sample patent_data target_size census_threshold)
      = false := by
    by_cases h2 : (patent_data.length : ℤ) ≤ target_size
    · simp [stratified_sample, h3, h2, raisesError]
    · simp [stratified_sample, h3, h2, raisesError]
  cases hres : stratified_sample patent_data target_size census_threshold with
  | error e => rw [hres] at hfalse; simp [raisesError] at hfalse
  | ok r => exact ⟨r, rfl⟩

/-- Claim C8: `stratified_sample` raises (`ValueError`) exactly when
`target_size < 1`; for every `target_size ≥ 1` it returns normally. -/
theorem C8_raises_iff (patent_data : List PItem) (target_size : ℤ)
    (census_threshold : ℕ) :
    raisesError (stratified_sample patent_data target_size census_threshold) = true ↔
      target_size < 1 := by
  constructor
  · intro h
    by_contra hlt
    obtain ⟨r, hr⟩ := stratified_sample_ok patent_data target_size census_threshold
      (by omega)
    rw [hr] at h
    simp [raisesError] at h
  · intro h
    have : stratified_sample patent_data target_size census_threshold =
        .error "target_size muss >= 1 sein" := by
      simp [stratified_sample, h]
    rw [this]
    rfl

/- ----------------------------------------------------------------
   Claim C10 — h-index.
---------------------------------------------------------------- -/

theorem hIndexLoop_ge (s : List ℤ) : ∀ i : ℕ, i ≤ hIndexLoop s i := by
  induction s with
  | nil => intro i; simp [hIndexLoop]
  | cons c rest ih =>
    intro i
    by_cases h : (i : ℤ) + 1 ≤ c
    · calc i ≤ i + 1 := by omega
        _ ≤ hIndexLoop rest (i + 1) := ih (i + 1)
        _ = hIndexLoop (c :: rest) i := by simp [hIndexLoop, h]
    · simp [hIndexLoop, h]

theorem hIndexLoop_le (s : List ℤ) : ∀ i : ℕ, hIndexLoop s i ≤ i + s.length := by
  induction s with
  | nil => intro i; simp [hIndexLoop]
  | cons c rest ih =>
    intro i
    by_cases h : (i : ℤ) + 1 ≤ c
    · have := ih (i + 1)
      simp only [hIndexLoop, h, if_pos]
      simp only [List.length_cons]
      omega
    · simp [hIndexLoop, h]

theorem hIndexLoop_attain (s : List ℤ) : ∀ i j : ℕ, i ≤ j → j < hIndexLoop s i →
    ((j : ℤ) + 1) ≤ s.getD (j - i) 0 := by
  induction s with
  | nil =>
    intro i j hij hj
    simp [hIndexLoop] at hj
    omega
  | cons c rest ih =>
    intro i j hij hj
    by_cases h : (i : ℤ) + 1 ≤ c
    · simp only [hIndexLoop, h, if_pos] at hj
      rcases Nat.eq_or_lt_of_le hij with rfl | hlt
      · simpa using h
      · have hsub : j - i = (j - (i + 1)) + 1 := by omega
        rw [hsub]
        simpa using ih (i + 1) j (by omega) hj
    · simp [hIndexLoop, h] at hj
      omega

theorem hIndexLoop_stop (s : List ℤ) : ∀ i : ℕ, hIndexLoop s i < i + s.length →
    ¬ (((hIndexLoop s i : ℤ) + 1) ≤ s.getD (hIndexLoop s i - i) 0) := by
  induction s with
  | nil =>
    intro i h
    simp [hIndexLoop] at h
  | cons c rest ih =>
    intro i h
    by_cases hc : (i : ℤ) + 1 ≤ c
    · have heq : hIndexLoop (c :: rest) i = hIndexLoop rest (i + 1) := by
        simp [hIndexLoop, hc]
      rw [heq] at h ⊢
      have hge : i + 1 ≤ hIndexLoop rest (i + 1) := hIndexLoop_ge rest (i + 1)
      have hsub : hIndexLoop rest (i + 1) - i = (hIndexLoop rest (i + 1) - (i + 1)) + 1 := by
        omega
      rw [hsub]
      have hlen : hIndexLoop rest (i + 1) < (i + 1) + rest.length := by
        simp only [List.length_cons] at h
        omega
      simpa using ih (i + 1) hlen
    · have heq : hIndexLoop (c :: rest) i = i := by simp [hIndexLoop, hc]
      rw [heq]
      simpa using hc

/-- Descending sortedness transfers to default-valued indexing. -/
theorem sorted_desc_getD (s : List ℤ)
    (hs : s.Pairwise fun x y => (decide (y ≤ x)) = true)
    (p q : ℕ) (hpq : p ≤ q) (hq : q < s.length) : s.getD q 0 ≤ s.getD p 0 := by
  have hp : p < s.length := lt_of_le_of_lt (by omega) hq
  rcases Nat.eq_or_lt_of_le hpq with rfl | hlt
  · exact le_refl _
  · have hs' : List.Sorted (fun x y : ℤ => y ≤ x) s := by
      exact hs.imp fun h => of_decide_eq_true h
    have := hs'.rel_get_of_lt (a := ⟨p, hp⟩) (b := ⟨q, hq⟩) (by simpa using hlt)
    rw [List.getD_eq_getElem s 0 hq, List.getD_eq_getElem s 0 hp]
    simpa [List.get_eq_getElem] using this

/-- Claim C10: the h-index is at most the number of papers, is attained
(the h-th largest citation count is `≥ h` unless `h = 0`), no larger
`i ≤ n` has its i-th largest citation count `≥ i`, and the result is
invariant under permutation of the input. -/
theorem C10_h_index (citations : List ℤ) (hnn : ∀ c ∈ citations, 0 ≤ c) :
    _compute_h_index citations ≤ citations.length ∧
    (_compute_h_index citations = 0 ∨
      ((_compute_h_index citations : ℤ) ≤
        (sortLe (fun a b => decide (b ≤ a)) citations).getD
          (_compute_h_index citations - 1) 0)) ∧
    (∀ i : ℕ, _compute_h_index citations < i → i ≤ citations.length →
      ¬ ((i : ℤ) ≤ (sortLe (fun a b => decide (b ≤ a)) citations).getD (i - 1) 0)) ∧
    (∀ l₂ : List ℤ, citations.Perm l₂ →
      _compute_h_index l₂ = _compute_h_index citations) := by
  have htot : ∀ a b : ℤ, decide (b ≤ a) = true ∨ decide (a ≤ b) = true := by
    intro a b
    rcases le_total a b with h | h
    · exact Or.inr (by simpa using h)
    · exact Or.inl (by simpa using h)
  have htrans : ∀ a b c : ℤ, decide (b ≤ a) = true → decide (c ≤ b) = true →
      decide (c ≤ a) = true := by
    intro a b c h1 h2
    simp only [decide_eq_true_eq] at h1 h2 ⊢
    omega
  have hslen : (sortLe (fun a b : ℤ => decide (b ≤ a)) citations).length =
      citations.length := sortLe_length _ citations
  have hsorted := sortLe_sorted (fun a b : ℤ => decide (b ≤ a)) htot htrans citations
  have hcomp : _compute_h_index citations =
      hIndexLoop (sortLe (fun a b : ℤ => decide (b ≤ a)) citations) 0 := rfl
  refine ⟨?_, ?_, ?_, ?_⟩
  · have := hIndexLoop_le (sortLe (fun a b : ℤ => decide (b ≤ a)) citations) 0
    rw [hcomp]
    omega
  · by_cases h0 : _compute_h_index citations = 0
    · exact Or.inl h0
    · refine Or.inr ?_
      have hge1 : 1 ≤ _compute_h_index citations := Nat.one_le_iff_ne_zero.mpr h0
      have hj := hIndexLoop_attain (sortLe (fun a b : ℤ => decide (b ≤ a)) citations)
        0 (_compute_h_index citations - 1) (Nat.zero_le _) (by omega)
      rw [Nat.sub_zero] at hj
      omega
  · intro i hi hile hcontra
    by_cases hlen : hIndexLoop (sortLe (fun a b : ℤ => decide (b ≤ a)) citations) 0 <
        (sortLe (fun a b : ℤ => decide (b ≤ a)) citations).length
    · have hstop := hIndexLoop_stop
        (sortLe (fun a b : ℤ => decide (b ≤ a)) citations) 0 (by omega)
      rw [Nat.sub_zero] at hstop
      have hmono : (sortLe (fun a b : ℤ => decide (b ≤ a)) citations).getD (i - 1) 0 ≤
          (sortLe (fun a b : ℤ => decide (b ≤ a)) citations).getD
            (hIndexLoop (sortLe (fun a b : ℤ => decide (b ≤ a)) citations) 0) 0 :=
        sorted_desc_getD _ hsorted _ _ (by omega) (by omega)
      omega
    · omega
  · intro l₂ hperm
    haveI : IsAntisymm ℤ fun a b : ℤ => b ≤ a :=
      ⟨fun a b h1 h2 => le_antisymm h2 h1⟩
    have h1 : sortLe (fun a b : ℤ => decide (b ≤ a)) l₂ =
        sortLe (fun a b : ℤ => decide (b ≤ a)) citations := by
      apply List.eq_of_perm_of_sorted (r := fun a b : ℤ => b ≤ a)
      · exact (sortLe_perm _ l₂).trans (hperm.symm.trans (sortLe_perm _ citations).symm)
      · exact (sortLe_sorted _ htot htrans l₂).imp fun h => of_decide_eq_true h
      · exact hsorted.imp fun h => of_decide_eq_true h
    simp [_compute_h_index, h1]

/- ----------------------------------------------------------------
   Claim C1 — Jaccard on the six-document example.
---------------------------------------------------------------- -/

/-- Claim C1, counterexample: on the six documents the top-4 codes are
`B, A, C, D` (counts 5, 4, 3, 1), and the entry for the pair (A, B) is
`|P(A) ∩ P(B)| / |P(A) ∪ P(B)| = 3/6 = 0.5`, not `3/5 = 0.6` as the
claim states (every one of the six documents carries A or B). -/
theorem C1_jaccard_counterexample :
    (build_cooccurrence [["A", "B"], ["A", "B"], ["A", "C"], ["B", "C"], ["B", "D"],
      ["A", "B", "C"]] 4).1 = ["B", "A", "C", "D"] ∧
    getEntry (build_cooccurrence [["A", "B"], ["A", "B"], ["A", "C"], ["B", "C"],
      ["B", "D"], ["A", "B", "C"]] 4).2.1 1 0 = 1/2 ∧
    ((1 : ℚ)/2 ≠ 3/5) := by
  refine ⟨by decide, ?_, by norm_num⟩
  have htake : (most_common [["A", "B"], ["A", "B"], ["A", "C"], ["B", "C"],
      ["B", "D"], ["A", "B", "C"]]).take 4 = ["B", "A", "C", "D"] := by decide
  have hw : coocWrites [["A", "B"], ["A", "B"], ["A", "C"], ["B", "C"], ["B", "D"],
      ["A", "B", "C"]] ["B", "A", "C", "D"] =
      [(0, 1, pyRound ((3 : ℚ) / 6) 4), (0, 2, pyRound ((2 : ℚ) / 6) 4),
       (0, 3, pyRound ((1 : ℚ) / 5) 4), (1, 2, pyRound ((2 : ℚ) / 5) 4)] := by
    have hip : indexPairs 4 = [(0, 1), (0, 2), (0, 3), (1, 2), (1, 3), (2, 3)] := by
      decide
    simp only [coocWrites, List.length_cons, List.length_nil]
    rw [show (0 + 1 + 1 + 1 + 1 : ℕ) = 4 from rfl, hip]
    simp +decide [pairCount, unionCount, List.filterMap_cons]
  simp only [build_cooccurrence, htake]
  norm_num +decide [hw, getEntry, writePairs, write2, setEntry, zeroMatrix,
    List.set, List.replicate, pyRound, pyRoundHalfEven]

/-- Claim C1, amended: on the six documents (with `top_n = 4`) the
ranked top-4 codes are `B, A, C, D` — the set {A, B, C, D} — and the
Jaccard matrix is symmetric with zero diagonal and 4-decimal rounded
entries, with `J(A,B) = 3/6 = 0.5` (the claim's `3/5 = 0.6000` is an
arithmetic slip: `|P(A) ∪ P(B)| = 6`, not 5). -/
theorem C1_jaccard_six_documents :
    build_cooccurrence [["A", "B"], ["A", "B"], ["A", "C"], ["B", "C"], ["B", "D"],
      ["A", "B", "C"]] 4 =
    (["B", "A", "C", "D"],
     [[0, 1/2, 3333/10000, 1/5],
      [1/2, 0, 2/5, 0],
      [3333/10000, 2/5, 0, 0],
      [1/5, 0, 0, 0]], 4) := by
  have htake : (most_common [["A", "B"], ["A", "B"], ["A", "C"], ["B", "C"],
      ["B", "D"], ["A", "B", "C"]]).take 4 = ["B", "A", "C", "D"] := by decide
  have hw : coocWrites [["A", "B"], ["A", "B"], ["A", "C"], ["B", "C"], ["B", "D"],
      ["A", "B", "C"]] ["B", "A", "C", "D"] =
      [(0, 1, pyRound ((3 : ℚ) / 6) 4), (0, 2, pyRound ((2 : ℚ) / 6) 4),
       (0, 3, pyRound ((1 : ℚ) / 5) 4), (1, 2, pyRound ((2 : ℚ) / 5) 4)] := by
    have hip : indexPairs 4 = [(0, 1), (0, 2), (0, 3), (1, 2), (1, 3), (2, 3)] := by
      decide
    simp only [coocWrites, List.length_cons, List.length_nil]
    rw [show (0 + 1 + 1 + 1 + 1 : ℕ) = 4 from rfl, hip]
    simp +decide [pairCount, unionCount, List.filterMap_cons]
  simp only [build_cooccurrence, htake]
  norm_num +decide [hw, writePairs, write2, setEntry, getEntry, zeroMatrix,
    List.set, List.replicate, pyRound, pyRoundHalfEven]

/- ----------------------------------------------------------------
   Claim C6 — matrix shape properties, counterexample part.
---------------------------------------------------------------- -/

/-- Claim C6, counterexample: with a single ranked code the function
returns one label but the empty matrix, so the matrix is not square
over the ranked top codes (0 × 0 against 1 label). -/
theorem C6_square_counterexample :
    (build_cooccurrence [["A"]] 5).1 = ["A"] ∧
    (build_cooccurrence [["A"]] 5).2.1 = ([] : List (List ℚ)) := by
  constructor
  · decide
  · decide

/- ----------------------------------------------------------------
   Matrix-fold machinery: the final state of the symmetric-write loops
   is characterised cell-by-cell by the last write touching the cell.
---------------------------------------------------------------- -/

theorem getD_set {α : Type} (l : List α) (i j : ℕ) (a d : α) :
    (l.set i a).getD j d = if i = j ∧ i < l.length then a else l.getD j d := by
  rw [List.getD_eq_getElem?_getD, List.getElem?_set]
  by_cases hij : i = j
  · subst hij
    by_cases hi : i < l.length
    · simp [hi]
    · have hnone : l[i]? = none := List.getElem?_eq_none (by omega)
      simp [hi, hnone]
  · simp [hij, List.getD_eq_getElem?_getD]

theorem DimsP.row_len {m : List (List ℚ)} {n : ℕ} (hm : DimsP m n) (i : ℕ)
    (hi : i < n) : (m.getD i []).length = n := by
  have hlen : i < m.length := by rw [hm.1]; exact hi
  rw [List.getD_eq_getElem _ _ hlen]
  exact hm.2 _ (List.getElem_mem hlen)

theorem dims_setEntry {m : List (List ℚ)} {n : ℕ} (hm : DimsP m n)
    (p q : ℕ) (hp : p < n) (v : ℚ) : DimsP (setEntry m p q v) n := by
  refine ⟨by simp [setEntry, hm.1], ?_⟩
  intro row hrow
  rcases List.mem_or_eq_of_mem_set hrow with h | h
  · exact hm.2 row h
  · rw [h, List.length_set]
    exact hm.row_len p hp

theorem getEntry_setEntry {m : List (List ℚ)} {n : ℕ} (hm : DimsP m n)
    (p q : ℕ) (hp : p < n) (hq : q < n) (v : ℚ) (i j : ℕ) :
    getEntry (setEntry m p q v) i j =
      if p = i ∧ q = j then v else getEntry m i j := by
  unfold getEntry setEntry
  rw [getD_set]
  by_cases hpi : p = i
  · subst hpi
    have hplen : p < m.length := hm.1 ▸ hp
    rw [if_pos ⟨rfl, hplen⟩, getD_set]
    have hqrow : q < (m.getD p []).length := by rw [hm.row_len p hp]; exact hq
    by_cases hqj : q = j
    · subst hqj
      rw [if_pos ⟨rfl, hqrow⟩, if_pos ⟨rfl, rfl⟩]
    · rw [if_neg fun h => hqj h.1, if_neg fun h => hqj h.2]
  · rw [if_neg fun h => hpi h.1, if_neg fun h => hpi h.1]

theorem dims_write2 {m : List (List ℚ)} {n : ℕ} (hm : DimsP m n)
    (w : ℕ × ℕ × ℚ) (h1 : w.1 < n) (h2 : w.2.1 < n) : DimsP (write2 m w) n :=
  dims_setEntry (dims_setEntry hm w.1 w.2.1 h1 w.2.2) w.2.1 w.1 h2 w.2.2

theorem getEntry_write2 {m : List (List ℚ)} {n : ℕ} (hm : DimsP m n)
    (w : ℕ × ℕ × ℚ) (h1 : w.1 < n) (h2 : w.2.1 < n) (i j : ℕ) :
    getEntry (write2 m w) i j =
      if touchesB w i j then w.2.2 else getEntry m i j := by
  unfold write2
  rw [getEntry_setEntry (dims_setEntry hm w.1 w.2.1 h1 w.2.2) w.2.1 w.1 h2 h1,
    getEntry_setEntry hm w.1 w.2.1 h1 h2]
  simp only [touchesB, Bool.or_eq_true, Bool.and_eq_true, decide_eq_true_eq]
  by_cases hA : w.2.1 = i ∧ w.1 = j
  · rw [if_pos hA, if_pos (Or.inr ⟨hA.2, hA.1⟩)]
  · rw [if_neg hA]
    by_cases hB : w.1 = i ∧ w.2.1 = j
    · rw [if_pos hB, if_pos (Or.inl hB)]
    · rw [if_neg hB, if_neg ?_]
      rintro (h | h)
      · exact hB h
      · exact hA ⟨h.2, h.1⟩

theorem dims_writePairs {n : ℕ} (ws : List (ℕ × ℕ × ℚ)) :
    ∀ m : List (List ℚ), DimsP m n → (∀ w ∈ ws, w.1 < n ∧ w.2.1 < n) →
    DimsP (writePairs m ws) n := by
  induction ws with
  | nil => intro m hm _; exact hm
  | cons w ws ih =>
    intro m hm hws
    have hw := hws w (by simp)
    exact ih (write2 m w) (dims_write2 hm w hw.1 hw.2)
      fun w' hw' => hws w' (by simp [hw'])

theorem lastTouch_cons (w : ℕ × ℕ × ℚ) (ws : List (ℕ × ℕ × ℚ)) (i j : ℕ) :
    lastTouch (w :: ws) i j =
      Option.or (lastTouch ws i j)
        (if touchesB w i j then some w.2.2 else none) := by
  unfold lastTouch
  by_cases ht : touchesB w i j
  · have hf : List.filter (fun x => touchesB x i j) (w :: ws) =
        w :: List.filter (fun x => touchesB x i j) ws := List.filter_cons_of_pos ht
    rw [hf, List.getLast?_cons]
    cases hfl : (ws.filter fun x => touchesB x i j).getLast? with
    | none => simp [hfl, ht]
    | some u => simp [hfl, ht]
  · have hf : List.filter (fun x => touchesB x i j) (w :: ws) =
        List.filter (fun x => touchesB x i j) ws := List.filter_cons_of_neg ht
    rw [hf]
    cases hfl : (ws.filter fun x => touchesB x i j).getLast? with
    | none => simp [hfl, ht]
    | some u => simp [hfl, ht]

theorem getEntry_writePairs {n : ℕ} (ws : List (ℕ × ℕ × ℚ)) :
    ∀ m : List (List ℚ), DimsP m n → (∀ w ∈ ws, w.1 < n ∧ w.2.1 < n) →
    ∀ i j : ℕ, getEntry (writePairs m ws) i j =
      (lastTouch ws i j).getD (getEntry m i j) := by
  induction ws with
  | nil => intro m _ _ i j; simp [writePairs, lastTouch]
  | cons w ws ih =>
    intro m hm hws i j
    have hw := hws w (by simp)
    have hstep : writePairs m (w :: ws) = writePairs (write2 m w) ws := rfl
    rw [hstep, ih (write2 m w) (dims_write2 hm w hw.1 hw.2)
      (fun w' hw' => hws w' (by simp [hw'])), lastTouch_cons,
      getEntry_write2 hm w hw.1 hw.2 i j]
    cases hL : lastTouch ws i j with
    | some v => simp
    | none =>
      by_cases ht : touchesB w i j
      · simp [ht]
      · simp [ht]

theorem touchesB_symm (w : ℕ × ℕ × ℚ) (i j : ℕ) :
    touchesB w i j = touchesB w j i := by
  unfold touchesB
  exact Bool.or_comm _ _

theorem lastTouch_symm (ws : List (ℕ × ℕ × ℚ)) (i j : ℕ) :
    lastTouch ws i j = lastTouch ws j i := by
  unfold lastTouch
  rw [List.filter_congr fun x _ => touchesB_symm x i j]

theorem getD_replicate_eq {α : Type} (n : ℕ) (a d : α) :
    ∀ i : ℕ, (List.replicate n a).getD i d = if i < n then a else d := by
  induction n with
  | zero => intro i; simp
  | succ k ih =>
    intro i
    cases i with
    | zero => simp [List.replicate]
    | succ i2 =>
      simp only [List.replicate, List.getD_cons_succ, ih i2]
      by_cases h : i2 < k
      · rw [if_pos h, if_pos (by omega)]
      · rw [if_neg h, if_neg (by omega)]

theorem getEntry_zeroMatrix (n i j : ℕ) : getEntry (zeroMatrix n) i j = 0 := by
  unfold getEntry zeroMatrix
  rw [getD_replicate_eq]
  by_cases hi : i < n
  · rw [if_pos hi, getD_replicate_eq]
    by_cases hj : j < n
    · rw [if_pos hj]
    · rw [if_neg hj]
  · rw [if_neg hi]
    simp

theorem dims_zeroMatrix (n : ℕ) : DimsP (zeroMatrix n) n := by
  refine ⟨by simp [zeroMatrix], ?_⟩
  intro row hrow
  rw [List.eq_of_mem_replicate hrow]
  simp

theorem mem_of_getLast_eq {α : Type} {l : List α} {a : α}
    (h : l.getLast? = some a) : a ∈ l := by
  induction l with
  | nil => simp at h
  | cons b t ih =>
    rw [List.getLast?_cons] at h
    cases ht : t.getLast? with
    | none =>
      rw [ht] at h
      simp only [Option.getD_none] at h
      injection h with h
      simp [h.symm]
    | some u =>
      rw [ht] at h
      simp only [Option.getD_some] at h
      injection h with h
      subst h
      simp [ih ht]

theorem filterMap_eq_of_split {α β : Type} (l₁ l₂ : List α) (g : α → Option β)
    (x₀ : α) (h₁ : ∀ x ∈ l₁, g x = none) (h₂ : ∀ x ∈ l₂, g x = none) :
    (l₁ ++ x₀ :: l₂).filterMap g = (g x₀).toList := by
  rw [List.filterMap_append, List.filterMap_cons,
    List.filterMap_eq_nil_iff.mpr h₁, List.filterMap_eq_nil_iff.mpr h₂]
  cases hga : g x₀ <;> simp

theorem mem_indexPairs (n : ℕ) (ab : ℕ × ℕ) :
    ab ∈ indexPairs n ↔ ab.1 < ab.2 ∧ ab.2 < n := by
  unfold indexPairs
  rw [List.mem_flatten]
  constructor
  · rintro ⟨l, hl, hab⟩
    rcases List.mem_map.mp hl with ⟨a, _, rfl⟩
    rcases List.mem_map.mp hab with ⟨b, hb, rfl⟩
    rcases List.mem_filter.mp hb with ⟨hbr, hlt⟩
    exact ⟨by simpa using hlt, List.mem_range.mp hbr⟩
  · rintro ⟨h1, h2⟩
    refine ⟨((List.range n).filter fun b => decide (ab.1 < b)).map fun b => (ab.1, b),
      List.mem_map.mpr ⟨ab.1, List.mem_range.mpr (lt_trans h1 h2), rfl⟩, ?_⟩
    exact List.mem_map.mpr ⟨ab.2,
      List.mem_filter.mpr ⟨List.mem_range.mpr h2, by simpa using h1⟩, rfl⟩

theorem nodup_indexPairs (n : ℕ) : (indexPairs n).Nodup := by
  unfold indexPairs
  rw [List.nodup_flatten]
  constructor
  · intro l hl
    rcases List.mem_map.mp hl with ⟨a, _, rfl⟩
    refine List.Nodup.map ?_ (List.Nodup.filter _ (List.nodup_range n))
    intro b b' h
    simpa using congrArg Prod.snd h
  · rw [List.pairwise_map]
    have : (List.range n).Pairwise (· ≠ ·) := (List.nodup_range n)
    refine this.imp ?_
    intro a b hab x hx hx'
    rcases List.mem_map.mp hx with ⟨c, _, rfl⟩
    rcases List.mem_map.mp hx' with ⟨d, _, heq⟩
    have hba : b = a := by simpa using congrArg Prod.fst heq
    exact hab hba.symm

/- ----------------------------------------------------------------
   Lemmas about the co-occurrence writes.
---------------------------------------------------------------- -/

theorem pairCount_comm (ps : List (List String)) (a b : String) :
    pairCount ps a b = pairCount ps b a := by
  unfold pairCount
  rw [List.filter_congr fun x _ => Bool.and_comm _ _]

theorem unionCount_comm (ps : List (List String)) (a b : String) :
    unionCount ps a b = unionCount ps b a := by
  unfold unionCount
  rw [List.filter_congr fun x _ => Bool.or_comm _ _]

theorem jaccardQ_comm (ps : List (List String)) (a b : String) :
    jaccardQ ps a b = jaccardQ ps b a := by
  unfold jaccardQ
  rw [pairCount_comm, unionCount_comm]

theorem jaccardQ_of_cnt_zero {ps : List (List String)} {a b : String}
    (h : pairCount ps a b = 0) : jaccardQ ps a b = 0 := by
  unfold jaccardQ
  rw [h]
  simp

theorem pyRound_zero (d : ℕ) : pyRound 0 d = 0 := by
  have h : pyRoundHalfEven 0 = 0 := by norm_num [pyRoundHalfEven]
  simp [pyRound, h]

theorem coocWrites_mem {ps : List (List String)} {tc : List String}
    {w : ℕ × ℕ × ℚ} (hw : w ∈ coocWrites ps tc) :
    w.1 < w.2.1 ∧ w.2.1 < tc.length ∧
    1 ≤ pairCount ps (tc.getD w.1 "") (tc.getD w.2.1 "") ∧
    w.2.2 = pyRound (jaccardQ ps (tc.getD w.1 "") (tc.getD w.2.1 "")) 4 := by
  rcases List.mem_filterMap.mp hw with ⟨ab, hab, hf⟩
  rcases (mem_indexPairs tc.length ab).mp hab with ⟨h1, h2⟩
  simp only [] at hf
  split at hf
  · exact absurd hf (by simp)
  · next hcnt =>
    injection hf with hf
    subst hf
    refine ⟨h1, h2, ?_, rfl⟩
    show 1 ≤ pairCount ps (tc.getD ab.1 "") (tc.getD ab.2 "")
    omega

theorem lastTouch_coocWrites (ps : List (List String)) (tc : List String)
    (i j : ℕ) (hij : i < j) (hj : j < tc.length) :
    lastTouch (coocWrites ps tc) i j =
      if pairCount ps (tc.getD i "") (tc.getD j "") < 1 then none
      else some (pyRound (jaccardQ ps (tc.getD i "") (tc.getD j "")) 4) := by
  unfold lastTouch coocWrites
  rw [List.filter_filterMap]
  have hmem : (i, j) ∈ indexPairs tc.length := (mem_indexPairs _ _).mpr ⟨hij, hj⟩
  obtain ⟨l₁, l₂, hsplit⟩ := List.append_of_mem hmem
  have hnd : (l₁ ++ (i, j) :: l₂).Nodup := hsplit ▸ nodup_indexPairs tc.length
  have hnotmem₁ : (i, j) ∉ l₁ := by
    intro hm
    exact (List.nodup_append.mp hnd).2.2 hm (by simp)
  have hnotmem₂ : (i, j) ∉ l₂ :=
    (List.nodup_cons.mp (List.nodup_append.mp hnd).2.1).1
  have hnone : ∀ ab, ab ∈ indexPairs tc.length → ab ≠ (i, j) →
      (Option.filter (fun w => touchesB w i j)
        (if pairCount ps (tc.getD ab.1 "") (tc.getD ab.2 "") < 1 then none
         else some (ab.1, ab.2,
           pyRound (if 0 < unionCount ps (tc.getD ab.1 "") (tc.getD ab.2 "")
             then (pairCount ps (tc.getD ab.1 "") (tc.getD ab.2 "") : ℚ) /
               (unionCount ps (tc.getD ab.1 "") (tc.getD ab.2 "") : ℚ)
             else 0) 4))) = none := by
    intro ab hab hne
    rcases (mem_indexPairs _ _).mp hab with ⟨h1, h2⟩
    by_cases hcnt : pairCount ps (tc.getD ab.1 "") (tc.getD ab.2 "") < 1
    · rw [if_pos hcnt]
      rfl
    · rw [if_neg hcnt]
      have hfalse : touchesB
          (ab.1, ab.2, pyRound (if 0 < unionCount ps (tc.getD ab.1 "") (tc.getD ab.2 "")
            then (pairCount ps (tc.getD ab.1 "") (tc.getD ab.2 "") : ℚ) /
              (unionCount ps (tc.getD ab.1 "") (tc.getD ab.2 "") : ℚ) else 0) 4) i j
          = false := by
        simp only [touchesB, Bool.or_eq_false_iff, Bool.and_eq_false_iff]
        constructor
        · by_cases hai : ab.1 = i
          · right
            simp only [decide_eq_false_iff_not]
            intro hbj
            exact hne (by rw [Prod.ext_iff]; exact ⟨hai, hbj⟩)
          · left
            simpa using hai
        · by_cases haj : ab.1 = j
          · right
            simp only [decide_eq_false_iff_not]
            intro hbi
            omega
          · left
            simpa using haj
      rw [Option.filter_some, hfalse]
      simp
  rw [hsplit, filterMap_eq_of_split l₁ l₂ _ (i, j) ?_ ?_]
  · by_cases hcnt : pairCount ps (tc.getD i "") (tc.getD j "") < 1
    · rw [if_pos hcnt, if_pos hcnt]
      rfl
    · rw [if_neg hcnt, if_neg hcnt]
      have htch : touchesB (i, j, pyRound (if 0 < unionCount ps (tc.getD i "") (tc.getD j "")
          then (pairCount ps (tc.getD i "") (tc.getD j "") : ℚ) /
            (unionCount ps (tc.getD i "") (tc.getD j "") : ℚ) else 0) 4) i j = true := by
        simp [touchesB]
      rw [Option.filter_some, htch]
      simp [jaccardQ]
  · intro x hx
    exact hnone x (hsplit ▸ List.mem_append_left _ hx)
      (fun hxe => hnotmem₁ (hxe ▸ hx))
  · intro x hx
    exact hnone x (hsplit ▸ List.mem_append_right _ (by simp [hx]))
      (fun hxe => hnotmem₂ (hxe ▸ hx))

/-- The labels of `build_cooccurrence` are the top codes in both
branches. -/
theorem build_cooccurrence_fst (ps : List (List String)) (top_n : ℕ) :
    (build_cooccurrence ps top_n).1 = (most_common ps).take top_n := by
  unfold build_cooccurrence
  simp only []
  split <;> rfl

/-- The matrix of `build_cooccurrence` in the non-degenerate branch. -/
theorem build_cooccurrence_snd (ps : List (List String)) (top_n : ℕ)
    (h : ¬ ((most_common ps).take top_n).length < 2) :
    (build_cooccurrence ps top_n).2.1 =
      writePairs (zeroMatrix ((most_common ps).take top_n).length)
        (coocWrites ps ((most_common ps).take top_n)) := by
  unfold build_cooccurrence
  rw [if_neg h]

/- ----------------------------------------------------------------
   Lemmas about the SQL-aggregate writes.
---------------------------------------------------------------- -/

theorem lastIdx_lt {tc : List String} {c : String} {i : ℕ}
    (h : lastIdx tc c = some i) : i < tc.length := by
  unfold lastIdx at h
  have hm := mem_of_getLast_eq h
  rcases List.mem_filter.mp hm with ⟨hr, _⟩
  exact List.mem_range.mp hr

theorem lastIdx_sound {tc : List String} {c : String} {i : ℕ}
    (h : lastIdx tc c = some i) : tc.getD i "" = c := by
  unfold lastIdx at h
  have hm := mem_of_getLast_eq h
  rcases List.mem_filter.mp hm with ⟨_, hc⟩
  simpa using hc

theorem sqlWrites_mem {tc : List String} {cc : List (String × ℕ)}
    {pcs : List (String × String × ℕ)} {w : ℕ × ℕ × ℚ}
    (hw : w ∈ sqlWrites tc cc pcs) :
    ∃ p ∈ pcs, 1 ≤ p.2.2 ∧ lastIdx tc p.1 = some w.1 ∧
      lastIdx tc p.2.1 = some w.2.1 ∧ w.2.2 = pyRound (sqlJaccardOf cc p) 4 := by
  rcases List.mem_filterMap.mp hw with ⟨p, hp, hf⟩
  simp only [] at hf
  split at hf
  · cases hf
  · next hco =>
    rcases hia : lastIdx tc p.1 with _ | ia
    · rw [hia] at hf
      cases hf
    · rcases hib : lastIdx tc p.2.1 with _ | ib
      · rw [hia, hib] at hf
        cases hf
      · rw [hia, hib] at hf
        simp only [] at hf
        injection hf with hf
        subst hf
        exact ⟨p, hp, by omega, hia, hib, rfl⟩

theorem sqlWrites_bounds (tc : List String) (cc : List (String × ℕ))
    (pcs : List (String × String × ℕ)) :
    ∀ w ∈ sqlWrites tc cc pcs, w.1 < tc.length ∧ w.2.1 < tc.length := by
  intro w hw
  rcases sqlWrites_mem hw with ⟨p, _, _, hia, hib, _⟩
  exact ⟨lastIdx_lt hia, lastIdx_lt hib⟩

theorem sql_diag (tc : List String) (cc : List (String × ℕ))
    (pcs : List (String × String × ℕ)) (hdist : ∀ p ∈ pcs, p.1 ≠ p.2.1) (i : ℕ) :
    lastTouch (sqlWrites tc cc pcs) i i = none := by
  unfold lastTouch
  have hfil : (sqlWrites tc cc pcs).filter (fun w => touchesB w i i) = [] := by
    rw [List.filter_eq_nil_iff]
    intro w hw
    rcases sqlWrites_mem hw with ⟨p, hp, _, hia, hib, _⟩
    simp only [touchesB, Bool.or_eq_true, Bool.and_eq_true, decide_eq_true_eq]
    rintro (⟨h1, h2⟩ | ⟨h1, h2⟩) <;>
    · apply hdist p hp
      rw [← lastIdx_sound hia, ← lastIdx_sound hib, h1, h2]
  rw [hfil]
  rfl

theorem cooc_diag (ps : List (List String)) (tc : List String) (i : ℕ) :
    lastTouch (coocWrites ps tc) i i = none := by
  unfold lastTouch
  have hfil : (coocWrites ps tc).filter (fun w => touchesB w i i) = [] := by
    rw [List.filter_eq_nil_iff]
    intro w hw
    have hlt := (coocWrites_mem hw).1
    simp only [touchesB, Bool.or_eq_true, Bool.and_eq_true, decide_eq_true_eq]
    rintro (⟨h1, h2⟩ | ⟨h1, h2⟩) <;> omega
  rw [hfil]
  rfl

theorem lastTouch_sqlWrites_none (tc : List String) (cc : List (String × ℕ))
    (pcs : List (String × String × ℕ)) (i j : ℕ)
    (h : ∀ p ∈ pcs, ¬ sqlTouches tc p i j) :
    lastTouch (sqlWrites tc cc pcs) i j = none := by
  unfold lastTouch
  have hfil : (sqlWrites tc cc pcs).filter (fun w => touchesB w i j) = [] := by
    rw [List.filter_eq_nil_iff]
    intro w hw
    rcases sqlWrites_mem hw with ⟨p, hp, hco, hia, hib, _⟩
    simp only [touchesB, Bool.or_eq_true, Bool.and_eq_true, decide_eq_true_eq]
    rintro (⟨h1, h2⟩ | ⟨h1, h2⟩)
    · exact h p hp ⟨hco, Or.inl ⟨h1 ▸ hia, h2 ▸ hib⟩⟩
    · exact h p hp ⟨hco, Or.inr ⟨h1 ▸ hia, h2 ▸ hib⟩⟩
  rw [hfil]
  rfl

theorem lastTouch_sqlWrites (tc : List String) (cc : List (String × ℕ))
    (pcs : List (String × String × ℕ)) (p : String × String × ℕ)
    (hkeys : pcs.Pairwise fun p q =>
      ¬ ((p.1 = q.1 ∧ p.2.1 = q.2.1) ∨ (p.1 = q.2.1 ∧ p.2.1 = q.1)))
    (hp : p ∈ pcs) (hco : 1 ≤ p.2.2) (ia ib : ℕ)
    (hia : lastIdx tc p.1 = some ia) (hib : lastIdx tc p.2.1 = some ib) :
    lastTouch (sqlWrites tc cc pcs) ia ib =
      some (pyRound (sqlJaccardOf cc p) 4) := by
  unfold lastTouch sqlWrites
  rw [List.filter_filterMap]
  obtain ⟨l₁, l₂, hsplit⟩ := List.append_of_mem hp
  have hkeys' : (l₁ ++ p :: l₂).Pairwise fun p q =>
      ¬ ((p.1 = q.1 ∧ p.2.1 = q.2.1) ∨ (p.1 = q.2.1 ∧ p.2.1 = q.1)) :=
    hsplit ▸ hkeys
  rcases List.pairwise_append.mp hkeys' with ⟨_, hk2, hk12⟩
  have hkl₂ : ∀ q ∈ l₂, ¬ ((p.1 = q.1 ∧ p.2.1 = q.2.1) ∨ (p.1 = q.2.1 ∧ p.2.1 = q.1)) := by
    rcases hk2 with _ | ⟨hpl, _⟩
    exact hpl
  have hnoneq : ∀ q : String × String × ℕ,
      (¬ ((q.1 = p.1 ∧ q.2.1 = p.2.1) ∨ (q.1 = p.2.1 ∧ q.2.1 = p.1))) →
      (Option.filter (fun w => touchesB w ia ib)
        (if q.2.2 < 1 then none
         else match lastIdx tc q.1, lastIdx tc q.2.1 with
           | some ia', some ib' =>
             some (ia', ib',
               pyRound (if 0 < ((lookupCount cc q.1 : ℤ) + (lookupCount cc q.2.1 : ℤ) -
                   (q.2.2 : ℤ)) then (q.2.2 : ℚ) /
                     (((lookupCount cc q.1 : ℤ) + (lookupCount cc q.2.1 : ℤ) -
                       (q.2.2 : ℤ) : ℤ) : ℚ) else 0) 4)
           | _, _ => none)) = none := by
    intro q hq
    by_cases hqco : q.2.2 < 1
    · rw [if_pos hqco]
      rfl
    · rw [if_neg hqco]
      rcases hqia : lastIdx tc q.1 with _ | ia'
      · rfl
      · rcases hqib : lastIdx tc q.2.1 with _ | ib'
        · rfl
        · simp only []
          rw [Option.filter_some]
          have hfalse : touchesB (ia', ib',
              pyRound (if 0 < ((lookupCount cc q.1 : ℤ) + (lookupCount cc q.2.1 : ℤ) -
                  (q.2.2 : ℤ)) then (q.2.2 : ℚ) /
                    (((lookupCount cc q.1 : ℤ) + (lookupCount cc q.2.1 : ℤ) -
                      (q.2.2 : ℤ) : ℤ) : ℚ) else 0) 4) ia ib = false := by
            simp only [touchesB, Bool.or_eq_false_iff, Bool.and_eq_false_iff,
              decide_eq_false_iff_not]
            constructor
            · by_cases h1 : ia' = ia
              · right
                intro h2
                apply hq
                left
                constructor
                · rw [← lastIdx_sound hqia, ← lastIdx_sound hia, h1]
                · rw [← lastIdx_sound hqib, ← lastIdx_sound hib, h2]
              · left
                exact h1
            · by_cases h1 : ia' = ib
              · right
                intro h2
                apply hq
                right
                constructor
                · rw [← lastIdx_sound hqia, ← lastIdx_sound hib, h1]
                · rw [← lastIdx_sound hqib, ← lastIdx_sound hia, h2]
              · left
                exact h1
          rw [hfalse]
          simp
  rw [hsplit, filterMap_eq_of_split l₁ l₂ _ p ?_ ?_]
  · rw [if_neg (by omega : ¬ p.2.2 < 1), hia, hib]
    simp only []
    rw [Option.filter_some]
    have htch : touchesB (ia, ib,
        pyRound (if 0 < ((lookupCount cc p.1 : ℤ) + (lookupCount cc p.2.1 : ℤ) -
            (p.2.2 : ℤ)) then (p.2.2 : ℚ) /
              (((lookupCount cc p.1 : ℤ) + (lookupCount cc p.2.1 : ℤ) -
                (p.2.2 : ℤ) : ℤ) : ℚ) else 0) 4) ia ib = true := by
      simp [touchesB]
    rw [htch]
    simp [sqlJaccardOf]
  · intro q hql
    exact hnoneq q (hk12 q hql p (by simp))
  · intro q hql
    have hq := hkl₂ q hql
    apply hnoneq q
    intro hcontra
    apply hq
    rcases hcontra with ⟨h1, h2⟩ | ⟨h1, h2⟩
    · exact Or.inl ⟨h1.symm, h2.symm⟩
    · exact Or.inr ⟨h2.symm, h1.symm⟩

/-- The matrix of `build_jaccard_from_sql` in the non-degenerate branch. -/
theorem build_jaccard_from_sql_fst (tc : List String) (cc : List (String × ℕ))
    (pcs : List (String × String × ℕ)) (h : ¬ tc.length < 2) :
    (build_jaccard_from_sql tc cc pcs).1 =
      writePairs (zeroMatrix tc.length) (sqlWrites tc cc pcs) := by
  unfold build_jaccard_from_sql
  rw [if_neg h]

/- ----------------------------------------------------------------
   Claim C6 — matrix shape properties, amended theorem.
---------------------------------------------------------------- -/

/-- Claim C6, amended: whenever at least two codes rank (otherwise the
returned matrix is empty), the matrix of `build_cooccurrence` is square
over the ranked top codes, symmetric, has zero diagonal, and every
off-diagonal entry is the exact Jaccard value of its code pair rounded
to 4 decimals.  The same holds for `build_jaccard_from_sql` on
well-formed SQL aggregates (every pair relates two distinct codes and
no unordered code pair is listed twice): the matrix is square,
symmetric, zero on the diagonal, each listed pair's two cells carry its
rounded Jaccard value, and cells touched by no pair are 0. -/
theorem C6_matrix_shape :
    (∀ (ps : List (List String)) (top_n : ℕ),
      2 ≤ ((build_cooccurrence ps top_n).1).length →
      (DimsP (build_cooccurrence ps top_n).2.1 ((build_cooccurrence ps top_n).1).length ∧
       (∀ i j : ℕ, getEntry (build_cooccurrence ps top_n).2.1 i j =
         getEntry (build_cooccurrence ps top_n).2.1 j i) ∧
       (∀ i : ℕ, getEntry (build_cooccurrence ps top_n).2.1 i i = 0) ∧
       (∀ i j : ℕ, i < ((build_cooccurrence ps top_n).1).length →
         j < ((build_cooccurrence ps top_n).1).length → i ≠ j →
         getEntry (build_cooccurrence ps top_n).2.1 i j =
           pyRound (jaccardQ ps (((build_cooccurrence ps top_n).1).getD i "")
             (((build_cooccurrence ps top_n).1).getD j "")) 4))) ∧
    (∀ (tc : List String) (cc : List (String × ℕ)) (pcs : List (String × String × ℕ)),
      2 ≤ tc.length →
      (∀ p ∈ pcs, p.1 ≠ p.2.1) →
      pcs.Pairwise (fun p q =>
        ¬ ((p.1 = q.1 ∧ p.2.1 = q.2.1) ∨ (p.1 = q.2.1 ∧ p.2.1 = q.1))) →
      (DimsP (build_jaccard_from_sql tc cc pcs).1 tc.length ∧
       (∀ i j : ℕ, getEntry (build_jaccard_from_sql tc cc pcs).1 i j =
         getEntry (build_jaccard_from_sql tc cc pcs).1 j i) ∧
       (∀ i : ℕ, getEntry (build_jaccard_from_sql tc cc pcs).1 i i = 0) ∧
       (∀ p ∈ pcs, 1 ≤ p.2.2 → ∀ ia ib : ℕ, lastIdx tc p.1 = some ia →
         lastIdx tc p.2.1 = some ib →
         getEntry (build_jaccard_from_sql tc cc pcs).1 ia ib =
           pyRound (sqlJaccardOf cc p) 4 ∧
         getEntry (build_jaccard_from_sql tc cc pcs).1 ib ia =
           pyRound (sqlJaccardOf cc p) 4) ∧
       (∀ i j : ℕ, (∀ p ∈ pcs, ¬ sqlTouches tc p i j) →
         getEntry (build_jaccard_from_sql tc cc pcs).1 i j = 0))) := by
  constructor
  · intro ps top_n h2
    rw [build_cooccurrence_fst] at h2
    have hnot : ¬ ((most_common ps).take top_n).length < 2 := by omega
    rw [build_cooccurrence_fst, build_cooccurrence_snd ps top_n hnot]
    have hbounds : ∀ w ∈ coocWrites ps ((most_common ps).take top_n),
        w.1 < ((most_common ps).take top_n).length ∧
        w.2.1 < ((most_common ps).take top_n).length := by
      intro w hw
      rcases coocWrites_mem hw with ⟨hlt, hub, _, _⟩
      exact ⟨lt_trans hlt hub, hub⟩
    have hchar := getEntry_writePairs (coocWrites ps ((most_common ps).take top_n))
      (zeroMatrix ((most_common ps).take top_n).length)
      (dims_zeroMatrix _) hbounds
    refine ⟨dims_writePairs _ _ (dims_zeroMatrix _) hbounds, ?_, ?_, ?_⟩
    · intro i j
      rw [hchar i j, hchar j i, lastTouch_symm, getEntry_zeroMatrix,
        getEntry_zeroMatrix]
    · intro i
      rw [hchar i i, cooc_diag, getEntry_zeroMatrix]
      rfl
    · intro i j hi hj hne
      rcases Nat.lt_or_ge i j with hij | hge
      · rw [hchar i j, lastTouch_coocWrites ps _ i j hij hj, getEntry_zeroMatrix]
        by_cases hcnt : pairCount ps (((most_common ps).take top_n).getD i "")
            (((most_common ps).take top_n).getD j "") < 1
        · rw [if_pos hcnt, jaccardQ_of_cnt_zero (by omega), pyRound_zero]
          rfl
        · rw [if_neg hcnt]
          rfl
      · have hij : j < i := by omega
        rw [hchar i j, lastTouch_symm, lastTouch_coocWrites ps _ j i hij hi,
          getEntry_zeroMatrix,
          jaccardQ_comm ps (((most_common ps).take top_n).getD i "")
            (((most_common ps).take top_n).getD j "")]
        by_cases hcnt : pairCount ps (((most_common ps).take top_n).getD j "")
            (((most_common ps).take top_n).getD i "") < 1
        · rw [if_pos hcnt, jaccardQ_of_cnt_zero (by omega), pyRound_zero]
          rfl
        · rw [if_neg hcnt]
          rfl
  · intro tc cc pcs h2 hdist hkeys
    have hnot : ¬ tc.length < 2 := by omega
    rw [build_jaccard_from_sql_fst tc cc pcs hnot]
    have hbounds := sqlWrites_bounds tc cc pcs
    have hchar := getEntry_writePairs (sqlWrites tc cc pcs) (zeroMatrix tc.length)
      (dims_zeroMatrix _) hbounds
    refine ⟨dims_writePairs _ _ (dims_zeroMatrix _) hbounds, ?_, ?_, ?_, ?_⟩
    · intro i j
      rw [hchar i j, hchar j i, lastTouch_symm, getEntry_zeroMatrix,
        getEntry_zeroMatrix]
    · intro i
      rw [hchar i i, sql_diag tc cc pcs hdist i, getEntry_zeroMatrix]
      rfl
    · intro p hp hco ia ib hia hib
      constructor
      · rw [hchar ia ib, lastTouch_sqlWrites tc cc pcs p hkeys hp hco ia ib hia hib]
        rfl
      · rw [hchar ib ia, lastTouch_symm,
          lastTouch_sqlWrites tc cc pcs p hkeys hp hco ia ib hia hib]
        rfl
    · intro i j hno
      rw [hchar i j, lastTouch_sqlWrites_none tc cc pcs i j hno, getEntry_zeroMatrix]
      rfl

/-- Claim C6, witness: the amended theorem applied to a two-patent
input whose three ranked codes give a 3 × 3 matrix; its first diagonal
entry is 0. -/
theorem C6_matrix_shape_witness :
    getEntry (build_cooccurrence [["A", "B"], ["B", "C"]] 3).2.1 0 0 = 0 :=
  (C6_matrix_shape.1 [["A", "B"], ["B", "C"]] 3 (by decide)).2.2.1 0

/- ----------------------------------------------------------------
   Association-list lemmas for the sampler.
---------------------------------------------------------------- -/

theorem lookup_cons_q {β : Type} (y k : ℤ) (w : β) (t : List (ℤ × β)) :
    List.lookup y ((k, w) :: t) = if y = k then some w else List.lookup y t := by
  rw [List.lookup_cons]
  by_cases h : y = k
  · simp [h]
  · have hb : (y == k) = false := by simp [h]
    simp [hb, h]

theorem lookup_some_mem {β : Type} {l : List (ℤ × β)} {y : ℤ} {v : β}
    (h : l.lookup y = some v) : (y, v) ∈ l := by
  induction l with
  | nil => simp [List.lookup] at h
  | cons a t ih =>
    rcases a with ⟨k, w⟩
    rw [lookup_cons_q] at h
    by_cases hk : y = k
    · rw [if_pos hk] at h
      injection h with h
      simp [hk, h]
    · rw [if_neg hk] at h
      simp [ih h]

theorem lookup_eq_of_mem {β : Type} {l : List (ℤ × β)}
    (hnd : (keysOf l).Nodup) {y : ℤ} {v : β} (hm : (y, v) ∈ l) :
    l.lookup y = some v := by
  induction l with
  | nil => simp at hm
  | cons a t ih =>
    rcases a with ⟨k, w⟩
    rcases List.nodup_cons.mp hnd with ⟨hknot, hndt⟩
    rw [lookup_cons_q]
    rcases List.mem_cons.mp hm with heq | hmt
    · injection heq with h1 h2
      rw [if_pos h1, h2]
    · have hy : y ∈ keysOf t := List.mem_map.mpr ⟨(y, v), hmt, rfl⟩
      have hyk : y ≠ k := fun h => hknot (h ▸ hy)
      rw [if_neg hyk]
      exact ih hndt hmt

theorem keysOf_map_pair {β γ : Type} (l : List (ℤ × β)) (f : ℤ × β → γ) :
    keysOf (l.map fun s => (s.1, f s)) = keysOf l := by
  unfold keysOf
  rw [List.map_map]
  rfl

theorem sumVals_eq_sum_over_keys {l : List (ℤ × ℕ)} (hnd : (keysOf l).Nodup) :
    ((keysOf l).map (lookupAlloc l)).sum = sumVals l := by
  induction l with
  | nil => simp [keysOf, sumVals]
  | cons a t ih =>
    rcases a with ⟨k, w⟩
    rcases List.nodup_cons.mp hnd with ⟨hknot, hndt⟩
    have hhead : lookupAlloc ((k, w) :: t) k = w := by
      unfold lookupAlloc
      rw [lookup_cons_q, if_pos rfl]
      rfl
    have htail : ∀ y ∈ keysOf t, lookupAlloc ((k, w) :: t) y = lookupAlloc t y := by
      intro y hy
      have hyk : y ≠ k := fun h => hknot (h ▸ hy)
      unfold lookupAlloc
      rw [lookup_cons_q, if_neg hyk]
    show (List.map (lookupAlloc ((k, w) :: t)) (k :: keysOf t)).sum = w + sumVals t
    rw [List.map_cons, List.sum_cons, hhead, List.map_congr_left htail, ih hndt]

theorem sum_lookup_perm {l : List (ℤ × ℕ)} (hnd : (keysOf l).Nodup)
    {ys : List ℤ} (hperm : ys.Perm (keysOf l)) :
    (ys.map (lookupAlloc l)).sum = sumVals l := by
  rw [(hperm.map (lookupAlloc l)).sum_eq]
  exact sumVals_eq_sum_over_keys hnd

theorem sum_map_split {α β : Type} [AddCommMonoid β] (l : List α) (p : α → Bool)
    (f : α → β) :
    (l.map f).sum = ((l.filter p).map f).sum +
      ((l.filter fun s => ! p s).map f).sum := by
  induction l with
  | nil => simp
  | cons a t ih =>
    by_cases hp : p a
    · have e1 : List.filter p (a :: t) = a :: List.filter p t :=
        List.filter_cons_of_pos hp
      have e2 : List.filter (fun s => ! p s) (a :: t) =
          List.filter (fun s => ! p s) t := List.filter_cons_of_neg (by simp [hp])
      rw [List.map_cons, List.sum_cons, e1, e2, List.map_cons, List.sum_cons, ih,
        add_assoc]
    · have e1 : List.filter p (a :: t) = List.filter p t :=
        List.filter_cons_of_neg hp
      have e2 : List.filter (fun s => ! p s) (a :: t) =
          a :: List.filter (fun s => ! p s) t :=
        List.filter_cons_of_pos (by simpa using hp)
      rw [List.map_cons, List.sum_cons, e1, e2, List.map_cons, List.sum_cons, ih,
        add_left_comm]

/- ----------------------------------------------------------------
   Invariants of _group_by_year: distinct year keys, nonempty groups,
   and total group size equal to the population size.
---------------------------------------------------------------- -/

theorem sumSizes_update (gs : List (ℤ × List ℕ)) (y : ℤ) (i : ℕ)
    (hnd : (keysOf gs).Nodup) (hany : (gs.any fun g => decide (g.1 = y)) = true) :
    sumSizes (gs.map fun g => if g.1 = y then (g.1, g.2 ++ [i]) else g) =
      sumSizes gs + 1 := by
  induction gs with
  | nil => simp at hany
  | cons g t ih =>
    rcases List.nodup_cons.mp hnd with ⟨hknot, hndt⟩
    by_cases hg : g.1 = y
    · have htail : ∀ g' ∈ t, ¬ g'.1 = y := by
        intro g' hg' heq
        exact hknot (by
          have : g.1 ∈ keysOf t := by
            rw [hg, ← heq]
            exact List.mem_map.mpr ⟨g', hg', rfl⟩
          exact this)
      have hmap : (t.map fun g => if g.1 = y then (g.1, g.2 ++ [i]) else g) = t := by
        rw [List.map_congr_left fun g' hg' => if_neg (htail g' hg')]
        exact List.map_id t
      rw [List.map_cons, if_pos hg, hmap]
      unfold sumSizes
      simp only [List.map_cons, List.sum_cons, List.length_append,
        List.length_cons, List.length_nil]
      omega
    · have hany' : (t.any fun g => decide (g.1 = y)) = true := by
        rcases List.any_eq_true.mp hany with ⟨g', hg', hdec⟩
        rcases List.mem_cons.mp hg' with rfl | hg't
        · exact absurd (of_decide_eq_true hdec) hg
        · exact List.any_eq_true.mpr ⟨g', hg't, hdec⟩
      rw [List.map_cons, if_neg hg]
      unfold sumSizes
      simp only [List.map_cons, List.sum_cons]
      have := ih hndt hany'
      unfold sumSizes at this
      omega

theorem addToGroup_inv (gs : List (ℤ × List ℕ)) (y : ℤ) (i : ℕ)
    (hnd : (keysOf gs).Nodup) (hpos : ∀ g ∈ gs, 1 ≤ g.2.length) :
    (keysOf (addToGroup gs y i)).Nodup ∧
    (∀ g ∈ addToGroup gs y i, 1 ≤ g.2.length) ∧
    sumSizes (addToGroup gs y i) = sumSizes gs + 1 := by
  by_cases hany : (gs.any fun g => decide (g.1 = y)) = true
  · unfold addToGroup
    rw [if_pos hany]
    refine ⟨?_, ?_, sumSizes_update gs y i hnd hany⟩
    · have hkeys : keysOf (gs.map fun g => if g.1 = y then (g.1, g.2 ++ [i]) else g) =
          keysOf gs := by
        unfold keysOf
        rw [List.map_map, List.map_congr_left]
        intro g _
        by_cases hg : g.1 = y
        · simp [hg]
        · simp [hg]
      rw [hkeys]
      exact hnd
    · intro g hg
      rcases List.mem_map.mp hg with ⟨g', hg', rfl⟩
      by_cases hcase : g'.1 = y
      · rw [if_pos hcase]
        simp
      · rw [if_neg hcase]
        exact hpos g' hg'
  · unfold addToGroup
    rw [if_neg hany]
    have hynot : y ∉ keysOf gs := by
      intro hy
      rcases List.mem_map.mp hy with ⟨g, hg, hgy⟩
      exact hany (List.any_eq_true.mpr ⟨g, hg, decide_eq_true hgy⟩)
    refine ⟨?_, ?_, ?_⟩
    · unfold keysOf
      rw [List.map_append]
      rw [List.nodup_append]
      refine ⟨hnd, by simp, ?_⟩
      intro x hx hxy
      simp only [List.map_cons, List.map_nil, List.mem_cons, List.not_mem_nil,
        or_false] at hxy
      exact hynot (hxy ▸ hx)
    · intro g hg
      rcases List.mem_append.mp hg with hg | hg
      · exact hpos g hg
      · simp only [List.mem_cons, List.not_mem_nil, or_false] at hg
        rw [hg]
        simp
    · unfold sumSizes
      rw [List.map_append, List.sum_append]
      simp

theorem groupAux_inv : ∀ (data : List PItem) (idx : ℕ) (gs : List (ℤ × List ℕ)),
    (keysOf gs).Nodup → (∀ g ∈ gs, 1 ≤ g.2.length) →
    (keysOf (groupAux data idx gs)).Nodup ∧
    (∀ g ∈ groupAux data idx gs, 1 ≤ g.2.length) ∧
    sumSizes (groupAux data idx gs) = sumSizes gs + data.length := by
  intro data
  induction data with
  | nil =>
    intro idx gs hnd hpos
    exact ⟨hnd, hpos, by simp [groupAux]⟩
  | cons item rest ih =>
    intro idx gs hnd hpos
    rcases addToGroup_inv gs item.2 idx hnd hpos with ⟨h1, h2, h3⟩
    rcases ih (idx + 1) (addToGroup gs item.2 idx) h1 h2 with ⟨h4, h5, h6⟩
    refine ⟨h4, h5, ?_⟩
    show sumSizes (groupAux rest (idx + 1) (addToGroup gs item.2 idx)) =
      sumSizes gs + (item :: rest).length
    rw [h6, h3]
    simp only [List.length_cons]
    omega

theorem group_by_year_nodup (d : List PItem) : (keysOf (_group_by_year d)).Nodup :=
  (groupAux_inv d 0 [] (by simp [keysOf]) (by simp)).1

theorem group_by_year_pos (d : List PItem) :
    ∀ g ∈ _group_by_year d, 1 ≤ g.2.length :=
  (groupAux_inv d 0 [] (by simp [keysOf]) (by simp)).2.1

theorem group_by_year_sum (d : List PItem) : sumSizes (_group_by_year d) = d.length := by
  have := (groupAux_inv d 0 [] (by simp [keysOf]) (by simp)).2.2
  simpa [sumSizes] using this

/- ----------------------------------------------------------------
   Lemmas about the largest-remainder correction loop.
---------------------------------------------------------------- -/

theorem keysOf_map_fst {β γ : Type} (l : List (ℤ × β)) (f : ℤ × β → ℤ × γ)
    (hf : ∀ s ∈ l, (f s).1 = s.1) : keysOf (l.map f) = keysOf l := by
  unfold keysOf
  rw [List.map_map]
  exact List.map_congr_left fun s hs => hf s hs

theorem keysOf_bumpAlloc (l : List (ℤ × ℕ)) (y : ℤ) :
    keysOf (bumpAlloc l y) = keysOf l := by
  unfold bumpAlloc
  refine keysOf_map_fst l _ ?_
  intro s _
  by_cases hs : s.1 = y
  · simp [hs]
  · simp [hs]

theorem bumpAlloc_cons_pos (k : ℤ) (w : ℕ) (t : List (ℤ × ℕ)) (y : ℤ)
    (h : k = y) : bumpAlloc ((k, w) :: t) y = (k, w + 1) :: bumpAlloc t y := by
  unfold bumpAlloc
  rw [List.map_cons]
  congr 1
  simp [h]

theorem bumpAlloc_cons_neg (k : ℤ) (w : ℕ) (t : List (ℤ × ℕ)) (y : ℤ)
    (h : ¬ k = y) : bumpAlloc ((k, w) :: t) y = (k, w) :: bumpAlloc t y := by
  unfold bumpAlloc
  rw [List.map_cons]
  congr 1
  simp [h]

theorem lookup_bumpAlloc (l : List (ℤ × ℕ)) (y y' : ℤ) :
    (bumpAlloc l y).lookup y' =
      (l.lookup y').map fun v => if y' = y then v + 1 else v := by
  induction l with
  | nil => rfl
  | cons a t ih =>
    rcases a with ⟨k, w⟩
    by_cases hky : k = y
    · rw [bumpAlloc_cons_pos k w t y hky, lookup_cons_q, lookup_cons_q]
      by_cases hy'k : y' = k
      · rw [if_pos hy'k, if_pos hy'k]
        have : y' = y := hy'k.trans hky
        simp [this]
      · rw [if_neg hy'k, if_neg hy'k]
        exact ih
    · rw [bumpAlloc_cons_neg k w t y hky, lookup_cons_q, lookup_cons_q]
      by_cases hy'k : y' = k
      · rw [if_pos hy'k, if_pos hy'k]
        have : ¬ y' = y := fun h => hky (hy'k ▸ h)
        simp [this]
      · rw [if_neg hy'k, if_neg hy'k]
        exact ih

theorem bumpAlloc_id (l : List (ℤ × ℕ)) (y : ℤ) (h : y ∉ keysOf l) :
    bumpAlloc l y = l := by
  unfold bumpAlloc
  have : ∀ s ∈ l, (if s.1 = y then (s.1, s.2 + 1) else s) = s := by
    intro s hs
    have : ¬ s.1 = y := fun he => h (he ▸ List.mem_map.mpr ⟨s, hs, rfl⟩)
    rw [if_neg this]
  rw [List.map_congr_left this]
  exact List.map_id l

theorem sumVals_bumpAlloc (l : List (ℤ × ℕ)) (y : ℤ)
    (hnd : (keysOf l).Nodup) (hy : y ∈ keysOf l) :
    sumVals (bumpAlloc l y) = sumVals l + 1 := by
  induction l with
  | nil => simp [keysOf] at hy
  | cons a t ih =>
    rcases a with ⟨k, w⟩
    rcases List.nodup_cons.mp hnd with ⟨hknot, hndt⟩
    by_cases hky : k = y
    · rw [bumpAlloc_cons_pos k w t y hky, bumpAlloc_id t y (hky ▸ hknot)]
      unfold sumVals
      simp only [List.map_cons, List.sum_cons]
      omega
    · rw [bumpAlloc_cons_neg k w t y hky]
      have hyt : y ∈ keysOf t := by
        rcases List.mem_cons.mp hy with h | h
        · exact absurd h.symm hky
        · exact h
      unfold sumVals
      simp only [List.map_cons, List.sum_cons]
      have := ih hndt hyt
      unfold sumVals at this
      omega

theorem keysOf_distribute (sizes : List (ℤ × ℕ)) :
    ∀ (rem : List (ℤ × ℚ)) (alloc : List (ℤ × ℕ)) (d : ℤ),
    keysOf (distributeDeficit sizes alloc rem d) = keysOf alloc := by
  intro rem
  induction rem with
  | nil => intro alloc d; rfl
  | cons r rest ih =>
    intro alloc d
    unfold distributeDeficit
    by_cases hd : d ≤ 0
    · rw [if_pos hd]
    · rw [if_neg hd]
      by_cases hlt : lookupAlloc alloc r.1 < lookupAlloc sizes r.1
      · rw [if_pos hlt, ih, keysOf_bumpAlloc]
      · rw [if_neg hlt, ih]

theorem distribute_le (sizes : List (ℤ × ℕ)) :
    ∀ (rem : List (ℤ × ℚ)) (alloc : List (ℤ × ℕ)) (d : ℤ),
    (∀ y, lookupAlloc alloc y ≤ lookupAlloc sizes y) →
    ∀ y, lookupAlloc (distributeDeficit sizes alloc rem d) y ≤ lookupAlloc sizes y := by
  intro rem
  induction rem with
  | nil => intro alloc d hle y; exact hle y
  | cons r rest ih =>
    intro alloc d hle y
    unfold distributeDeficit
    by_cases hd : d ≤ 0
    · rw [if_pos hd]
      exact hle y
    · rw [if_neg hd]
      by_cases hlt : lookupAlloc alloc r.1 < lookupAlloc sizes r.1
      · rw [if_pos hlt]
        refine ih (bumpAlloc alloc r.1) (d - 1) ?_ y
        intro y'
        unfold lookupAlloc
        rw [lookup_bumpAlloc]
        by_cases hy' : y' = r.1
        · rw [hy']
          cases hcase : alloc.lookup r.1 with
          | none => simp [hcase]
          | some v =>
            have hlt2 := hlt
            unfold lookupAlloc at hlt2
            rw [hcase] at hlt2
            simp only [Option.getD_some] at hlt2
            simp [hcase]
            omega
        · cases hcase : alloc.lookup y' with
          | none => simp [hcase]
          | some v =>
            have h2 := hle y'
            unfold lookupAlloc at h2
            rw [hcase] at h2
            simp only [Option.getD_some] at h2
            simp [hcase, hy']
            omega
      · rw [if_neg hlt]
        exact ih alloc d hle y

theorem distribute_sum (sizes : List (ℤ × ℕ)) :
    ∀ (rem : List (ℤ × ℚ)) (alloc : List (ℤ × ℕ)) (d : ℤ),
    (keysOf alloc).Nodup →
    (∀ r ∈ rem, r.1 ∈ keysOf alloc ∧ lookupAlloc alloc r.1 < lookupAlloc sizes r.1) →
    (rem.map (·.1)).Nodup →
    0 ≤ d → d ≤ rem.length →
    sumVals (distributeDeficit sizes alloc rem d) = sumVals alloc + d.toNat := by
  intro rem
  induction rem with
  | nil =>
    intro alloc d _ _ _ h0 hlen
    have : d = 0 := by simpa using le_antisymm (by simpa using hlen) h0
    subst this
    rfl
  | cons r rest ih =>
    intro alloc d hnd helig hremnd h0 hlen
    unfold distributeDeficit
    by_cases hd : d ≤ 0
    · rw [if_pos hd]
      have : d = 0 := le_antisymm hd h0
      subst this
      rfl
    · rw [if_neg hd]
      have helr := helig r (by simp)
      rw [if_pos helr.2]
      rcases List.nodup_cons.mp hremnd with ⟨hrnot, hrndt⟩
      have hrnot' : r.1 ∉ rest.map (·.1) := by simpa using hrnot
      have hstep := ih (bumpAlloc alloc r.1) (d - 1)
        (by rw [keysOf_bumpAlloc]; exact hnd)
        ?_ hrndt (by omega) (by simp at hlen; omega)
      · rw [hstep, sumVals_bumpAlloc alloc r.1 hnd helr.1]
        omega
      · intro r' hr'
        have hne : r'.1 ≠ r.1 := by
          intro he
          exact hrnot'
            (he ▸ (List.mem_map.mpr ⟨r', hr', rfl⟩ : r'.1 ∈ rest.map (·.1)))
        have hel' := helig r' (by simp [hr'])
        constructor
        · rw [keysOf_bumpAlloc]
          exact hel'.1
        · have hb : lookupAlloc (bumpAlloc alloc r.1) r'.1 = lookupAlloc alloc r'.1 := by
            unfold lookupAlloc
            rw [lookup_bumpAlloc]
            cases hcase : alloc.lookup r'.1 with
            | none => simp
            | some v => simp [hne]
          rw [hb]
          exact hel'.2

/- ----------------------------------------------------------------
   Sum analysis of _allocate_proportional.
---------------------------------------------------------------- -/

theorem sumVals_map_pair {β : Type} (l : List (ℤ × β)) (f : ℤ × β → ℕ) :
    sumVals (l.map fun s => (s.1, f s)) = (l.map f).sum := by
  unfold sumVals
  rw [List.map_map]
  rfl

theorem census_noncensus_sum (sizes : List (ℤ × ℕ)) (th : ℕ) :
    censusTotalOf sizes th + nonCensusTotalOf sizes th = sumVals sizes := by
  unfold censusTotalOf nonCensusTotalOf sumVals
  have hfc : (sizes.filter fun s => decide (¬ s.2 ≤ th)) =
      sizes.filter fun s => ! decide (s.2 ≤ th) :=
    List.filter_congr fun s _ => by rw [decide_not]
  rw [hfc]
  exact (sum_map_split sizes (fun s => decide (s.2 ≤ th)) (·.2)).symm

theorem nc_nonempty_of_total_ne_zero {sizes : List (ℤ × ℕ)} {th : ℕ}
    (h : nonCensusTotalOf sizes th ≠ 0) :
    (sizes.filter fun s => decide (¬ s.2 ≤ th)) ≠ [] := by
  intro hnil
  apply h
  unfold nonCensusTotalOf sumVals
  rw [hnil]
  rfl

theorem sum_branch_split (sizes : List (ℤ × ℕ)) (th : ℕ) (f g : ℤ × ℕ → ℕ) :
    sumVals (sizes.map fun s => if s.2 ≤ th then (s.1, f s) else (s.1, g s)) =
      ((sizes.filter fun s => decide (s.2 ≤ th)).map f).sum +
      ((sizes.filter fun s => decide (¬ s.2 ≤ th)).map g).sum := by
  have h1 : (sizes.map fun s => if s.2 ≤ th then (s.1, f s) else (s.1, g s)) =
      sizes.map fun s => (s.1, if s.2 ≤ th then f s else g s) := by
    apply List.map_congr_left
    intro s _
    by_cases hs : s.2 ≤ th
    · rw [if_pos hs, if_pos hs]
    · rw [if_neg hs, if_neg hs]
  rw [h1, sumVals_map_pair]
  have h2 : (sizes.filter fun s => decide (¬ s.2 ≤ th)) =
      sizes.filter fun s => ! decide (s.2 ≤ th) :=
    List.filter_congr fun s _ => by rw [decide_not]
  rw [h2, sum_map_split sizes (fun s => decide (s.2 ≤ th))
    (fun s => if s.2 ≤ th then f s else g s)]
  congr 1
  · apply congrArg
    apply List.map_congr_left
    intro s hs
    have := (List.mem_filter.mp hs).2
    rw [if_pos (of_decide_eq_true this)]
  · apply congrArg
    apply List.map_congr_left
    intro s hs
    have := (List.mem_filter.mp hs).2
    simp only [Bool.not_eq_eq_eq_not, Bool.not_true, decide_eq_false_iff_not] at this
    rw [if_neg this]

theorem sumVals_allocCensusOverride (sizes : List (ℤ × ℕ)) (th : ℕ) (r : ℤ)
    (hpos : ∀ s ∈ sizes, 1 ≤ s.2)
    (hcase : r ≤ 0 ∨ nonCensusTotalOf sizes th = 0) :
    sumVals (allocCensusOverride sizes th r) = censusTotalOf sizes th := by
  unfold allocCensusOverride
  rw [sum_branch_split sizes th (fun s => s.2) (fun s => if 0 < r then min 1 s.2 else 0)]
  have hcensus : ((sizes.filter fun s => decide (s.2 ≤ th)).map fun s => s.2).sum =
      censusTotalOf sizes th := rfl
  rw [hcensus]
  rcases hcase with hr | hnct
  · have hz : ((sizes.filter fun s => decide (¬ s.2 ≤ th)).map
        fun s => if 0 < r then min 1 s.2 else 0).sum = 0 := by
      apply List.sum_eq_zero
      intro x hx
      rcases List.mem_map.mp hx with ⟨s, _, hmap⟩
      rw [← hmap, if_neg (by omega)]
    omega
  · have hnil : (sizes.filter fun s => decide (¬ s.2 ≤ th)) = [] := by
      rcases hfil : sizes.filter fun s => decide (¬ s.2 ≤ th) with _ | ⟨a, rest⟩
      · exact hfil
      · exfalso
        have ha : a ∈ sizes.filter fun s => decide (¬ s.2 ≤ th) := by
          rw [hfil]; exact List.mem_cons_self a rest
        have h1 : 1 ≤ a.2 := hpos a (List.mem_filter.mp ha).1
        have hne : nonCensusTotalOf sizes th ≠ 0 := by
          unfold nonCensusTotalOf sumVals
          rw [hfil]
          simp only [List.map_cons, List.sum_cons]
          omega
        exact hne hnct
    rw [hnil]
    simp

theorem sum_map_mul_left_q {α : Type} (l : List α) (a : ℚ) (f : α → ℚ) :
    (l.map fun x => a * f x).sum = a * (l.map f).sum := by
  induction l with
  | nil => simp
  | cons b t ih => simp [ih, mul_add]

theorem cast_sum_map {α : Type} (l : List α) (f : α → ℕ) :
    (((l.map f).sum : ℕ) : ℚ) = (l.map fun x => ((f x : ℕ) : ℚ)).sum := by
  induction l with
  | nil => simp
  | cons b t ih => simp [ih]

theorem sum_map_add_q {α : Type} (l : List α) (f g : α → ℚ) :
    (l.map fun x => f x + g x).sum = (l.map f).sum + (l.map g).sum := by
  induction l with
  | nil => simp
  | cons b t ih =>
    simp only [List.map_cons, List.sum_cons, ih]
    ring

theorem sum_map_one_q {α : Type} (l : List α) :
    (l.map fun _ => (1 : ℚ)).sum = (l.length : ℚ) := by
  induction l with
  | nil => simp
  | cons b t ih =>
    simp only [List.map_cons, List.sum_cons, ih, List.length_cons]
    push_cast
    ring

theorem toNat_floor_le (q : ℚ) (h : 0 ≤ q) : ((⌊q⌋.toNat : ℕ) : ℚ) ≤ q := by
  have hfl0 : 0 ≤ ⌊q⌋ := Int.floor_nonneg.mpr h
  have h3 : ((⌊q⌋.toNat : ℕ) : ℤ) = ⌊q⌋ := Int.toNat_of_nonneg hfl0
  have h4 : ((⌊q⌋.toNat : ℕ) : ℚ) = ((⌊q⌋ : ℤ) : ℚ) := by
    rw [← h3]
    exact (Int.cast_natCast _).symm
  rw [h4]
  exact Int.floor_le q

theorem lt_toNat_floor_add_one (q : ℚ) (h : 0 ≤ q) :
    q < ((⌊q⌋.toNat : ℕ) : ℚ) + 1 := by
  have hfl0 : 0 ≤ ⌊q⌋ := Int.floor_nonneg.mpr h
  have h3 : ((⌊q⌋.toNat : ℕ) : ℤ) = ⌊q⌋ := Int.toNat_of_nonneg hfl0
  have h4 : ((⌊q⌋.toNat : ℕ) : ℚ) = ((⌊q⌋ : ℤ) : ℚ) := by
    rw [← h3]
    exact (Int.cast_natCast _).symm
  rw [h4]
  exact Int.lt_floor_add_one q

theorem exactQuota_nonneg {r : ℤ} (sz nct : ℕ) (hr : 0 ≤ r) :
    0 ≤ exactQuota r sz nct := by
  unfold exactQuota
  have h0 : (0 : ℚ) ≤ (r : ℚ) := by exact_mod_cast hr
  exact div_nonneg (mul_nonneg h0 (Nat.cast_nonneg sz)) (Nat.cast_nonneg nct)

theorem exactQuota_lt_size {r : ℤ} {sz nct : ℕ} (hsz : 0 < sz) (hr : 0 < r)
    (hlt : r < (nct : ℤ)) : exactQuota r sz nct < (sz : ℚ) := by
  unfold exactQuota
  have hn : (0 : ℚ) < (nct : ℚ) := by exact_mod_cast lt_trans hr hlt
  rw [div_lt_iff₀ hn]
  have h1 : (r : ℚ) < (nct : ℚ) := by exact_mod_cast hlt
  have h2 : (0 : ℚ) < (sz : ℚ) := by exact_mod_cast hsz
  nlinarith

theorem flooredQuota_lt {r : ℤ} {sz nct : ℕ} (hsz : 0 < sz) (hr : 0 < r)
    (hlt : r < (nct : ℤ)) :
    flooredQuota r sz nct = ⌊exactQuota r sz nct⌋.toNat ∧
    flooredQuota r sz nct < sz := by
  have he := exactQuota_lt_size hsz hr hlt
  have hfl : ⌊exactQuota r sz nct⌋ < ((sz : ℕ) : ℤ) := by
    rw [Int.floor_lt]
    push_cast
    exact he
  have htn : ⌊exactQuota r sz nct⌋.toNat < sz := by omega
  unfold flooredQuota
  omega

theorem flooredQuota_le_exact {r : ℤ} (sz nct : ℕ) (hr : 0 ≤ r) :
    ((flooredQuota r sz nct : ℕ) : ℚ) ≤ exactQuota r sz nct := by
  have h0 := exactQuota_nonneg sz nct hr (r := r)
  have h1 : flooredQuota r sz nct ≤ ⌊exactQuota r sz nct⌋.toNat := by
    unfold flooredQuota
    omega
  calc ((flooredQuota r sz nct : ℕ) : ℚ)
      ≤ ((⌊exactQuota r sz nct⌋.toNat : ℕ) : ℚ) := by exact_mod_cast h1
    _ ≤ exactQuota r sz nct := toNat_floor_le _ h0

theorem sum_exactQuota (l : List (ℤ × ℕ)) (r : ℤ) (nct : ℕ)
    (hsum : (l.map (·.2)).sum = nct) (h0 : nct ≠ 0) :
    (l.map fun s => exactQuota r s.2 nct).sum = (r : ℚ) := by
  have h1 : (l.map fun s => exactQuota r s.2 nct) =
      l.map fun s => ((r : ℚ) / (nct : ℚ)) * ((s.2 : ℕ) : ℚ) := by
    apply List.map_congr_left
    intro s _
    unfold exactQuota
    ring
  rw [h1, sum_map_mul_left_q l ((r : ℚ) / (nct : ℚ)) (fun s => ((s.2 : ℕ) : ℚ)),
    ← cast_sum_map l (·.2), hsum]
  have hne : ((nct : ℕ) : ℚ) ≠ 0 := Nat.cast_ne_zero.mpr h0
  field_simp

theorem allocCensusOverride_eq (sizes : List (ℤ × ℕ)) (th : ℕ) (r : ℤ) :
    allocCensusOverride sizes th r =
      sizes.map fun s =>
        (s.1, if s.2 ≤ th then s.2 else if 0 < r then min 1 s.2 else 0) := by
  unfold allocCensusOverride
  apply List.map_congr_left
  intro s _
  by_cases hs : s.2 ≤ th
  · rw [if_pos hs, if_pos hs]
  · rw [if_neg hs, if_neg hs]

theorem allocFloored_eq (sizes : List (ℤ × ℕ)) (th : ℕ) (r : ℤ) (nct : ℕ) :
    allocFloored sizes th r nct =
      sizes.map fun s =>
        (s.1, if s.2 ≤ th then s.2 else flooredQuota r s.2 nct) := by
  unfold allocFloored
  apply List.map_congr_left
  intro s _
  by_cases hs : s.2 ≤ th
  · rw [if_pos hs, if_pos hs]
  · rw [if_neg hs, if_neg hs]

theorem keysOf_allocFloored (sizes : List (ℤ × ℕ)) (th : ℕ) (r : ℤ) (nct : ℕ) :
    keysOf (allocFloored sizes th r nct) = keysOf sizes := by
  rw [allocFloored_eq, keysOf_map_pair]

theorem lookup_none_of_not_mem {β : Type} {l : List (ℤ × β)} {y : ℤ}
    (h : y ∉ keysOf l) : l.lookup y = none := by
  induction l with
  | nil => rfl
  | cons a t ih =>
    rcases a with ⟨k, w⟩
    have hk : ¬ (y = k ∨ y ∈ keysOf t) := by
      intro hor
      apply h
      unfold keysOf
      rcases hor with h1 | h1
      · exact List.mem_cons.mpr (Or.inl h1)
      · exact List.mem_cons.mpr (Or.inr h1)
    push_neg at hk
    rw [lookup_cons_q, if_neg hk.1]
    exact ih hk.2

theorem lookupAlloc_map_le {sizes : List (ℤ × ℕ)} (hnd : (keysOf sizes).Nodup)
    (f : ℤ × ℕ → ℕ) (hf : ∀ s ∈ sizes, f s ≤ s.2) (y : ℤ) :
    lookupAlloc (sizes.map fun s => (s.1, f s)) y ≤ lookupAlloc sizes y := by
  unfold lookupAlloc
  cases hlk : sizes.lookup y with
  | none =>
    have hnot : y ∉ keysOf sizes := by
      intro hmem
      rcases List.mem_map.mp hmem with ⟨s, hs, hsy⟩
      have hm : (y, s.2) ∈ sizes := by
        rw [← hsy, Prod.mk.eta]
        exact hs
      rw [lookup_eq_of_mem hnd hm] at hlk
      exact Option.noConfusion hlk
    have hnot2 : y ∉ keysOf (sizes.map fun s => (s.1, f s)) := by
      rw [keysOf_map_pair]
      exact hnot
    rw [lookup_none_of_not_mem hnot2]
  | some v =>
    have hm := lookup_some_mem hlk
    have hnd2 : (keysOf (sizes.map fun s => (s.1, f s))).Nodup := by
      rw [keysOf_map_pair]
      exact hnd
    have hm2 : (y, f (y, v)) ∈ sizes.map fun s => (s.1, f s) :=
      List.mem_map.mpr ⟨(y, v), hm, rfl⟩
    rw [lookup_eq_of_mem hnd2 hm2]
    exact hf (y, v) hm

theorem lookupAlloc_self {sizes : List (ℤ × ℕ)} (hnd : (keysOf sizes).Nodup)
    {s : ℤ × ℕ} (hs : s ∈ sizes) : lookupAlloc sizes s.1 = s.2 := by
  unfold lookupAlloc
  have hm : (s.1, s.2) ∈ sizes := by
    rw [Prod.mk.eta]
    exact hs
  rw [lookup_eq_of_mem hnd hm]
  rfl

theorem lookupAlloc_allocFloored {sizes : List (ℤ × ℕ)} {th : ℕ} {r : ℤ}
    {nct : ℕ} (hnd : (keysOf sizes).Nodup) {s : ℤ × ℕ} (hs : s ∈ sizes)
    (hc : ¬ s.2 ≤ th) :
    lookupAlloc (allocFloored sizes th r nct) s.1 = flooredQuota r s.2 nct := by
  have hmem : (s.1, flooredQuota r s.2 nct) ∈ allocFloored sizes th r nct := by
    unfold allocFloored
    refine List.mem_map.mpr ⟨s, hs, ?_⟩
    rw [if_neg hc]
  have hk : (keysOf (allocFloored sizes th r nct)).Nodup := by
    rw [keysOf_allocFloored]
    exact hnd
  unfold lookupAlloc
  rw [lookup_eq_of_mem hk hmem]
  rfl

theorem mem_remaindersOf {sizes : List (ℤ × ℕ)} {th : ℕ} {r : ℤ} {nct : ℕ}
    {p : ℤ × ℚ} (hp : p ∈ remaindersOf sizes th r nct) :
    ∃ s ∈ sizes, ¬ s.2 ≤ th ∧ p.1 = s.1 := by
  unfold remaindersOf at hp
  rcases List.mem_filterMap.mp hp with ⟨s, hs, hmap⟩
  by_cases hc : s.2 ≤ th
  · rw [if_pos hc] at hmap
    exact absurd hmap (by simp)
  · rw [if_neg hc] at hmap
    refine ⟨s, hs, hc, ?_⟩
    rw [← Option.some.inj hmap]

theorem keys_remaindersOf (sizes : List (ℤ × ℕ)) (th : ℕ) (r : ℤ) (nct : ℕ) :
    (remaindersOf sizes th r nct).map (·.1) =
      (sizes.filter fun s => decide (¬ s.2 ≤ th)).map (·.1) := by
  unfold remaindersOf
  induction sizes with
  | nil => rfl
  | cons a t ih =>
    by_cases hc : a.2 ≤ th
    · simpa [List.filterMap_cons, List.filter_cons, hc] using ih
    · have hc' : th < a.2 := by omega
      simpa [List.filterMap_cons, List.filter_cons, hc, hc'] using ih

theorem length_remaindersOf (sizes : List (ℤ × ℕ)) (th : ℕ) (r : ℤ) (nct : ℕ) :
    (remaindersOf sizes th r nct).length =
      (sizes.filter fun s => decide (¬ s.2 ≤ th)).length := by
  have h := congrArg List.length (keys_remaindersOf sizes th r nct)
  simpa using h

theorem sumVals_allocFloored (sizes : List (ℤ × ℕ)) (th : ℕ) (r : ℤ) (nct : ℕ) :
    sumVals (allocFloored sizes th r nct) =
      censusTotalOf sizes th +
      ((sizes.filter fun s => decide (¬ s.2 ≤ th)).map
        fun s => flooredQuota r s.2 nct).sum := by
  unfold allocFloored
  rw [sum_branch_split sizes th (fun s => s.2) (fun s => flooredQuota r s.2 nct)]
  rfl

theorem keysOf_allocate (sizes : List (ℤ × ℕ)) (t : ℤ) (th : ℕ) :
    keysOf (_allocate_proportional sizes t th) = keysOf sizes := by
  unfold _allocate_proportional
  simp only []
  by_cases hc : t - (censusTotalOf sizes th : ℤ) ≤ 0 ∨
      nonCensusTotalOf sizes th = 0
  · rw [if_pos hc, allocCensusOverride_eq, keysOf_map_pair]
  · rw [if_neg hc, keysOf_distribute, keysOf_allocFloored]

theorem allocate_le (sizes : List (ℤ × ℕ)) (t : ℤ) (th : ℕ)
    (hnd : (keysOf sizes).Nodup) :
    ∀ y, lookupAlloc (_allocate_proportional sizes t th) y ≤
      lookupAlloc sizes y := by
  intro y
  unfold _allocate_proportional
  simp only []
  by_cases hc : t - (censusTotalOf sizes th : ℤ) ≤ 0 ∨
      nonCensusTotalOf sizes th = 0
  · rw [if_pos hc, allocCensusOverride_eq]
    apply lookupAlloc_map_le hnd
    intro s _
    by_cases hs : s.2 ≤ th
    · rw [if_pos hs]
    · rw [if_neg hs]
      by_cases hr : 0 < t - (censusTotalOf sizes th : ℤ)
      · rw [if_pos hr]
        exact min_le_right 1 s.2
      · rw [if_neg hr]
        exact Nat.zero_le s.2
  · rw [if_neg hc]
    apply distribute_le
    intro z
    rw [allocFloored_eq]
    apply lookupAlloc_map_le hnd
    intro s _
    by_cases hs : s.2 ≤ th
    · rw [if_pos hs]
    · rw [if_neg hs]
      unfold flooredQuota
      exact min_le_right _ s.2

theorem sumVals_allocate_census (sizes : List (ℤ × ℕ)) (t : ℤ) (th : ℕ)
    (hpos : ∀ s ∈ sizes, 1 ≤ s.2)
    (hcase : t - (censusTotalOf sizes th : ℤ) ≤ 0 ∨
      nonCensusTotalOf sizes th = 0) :
    sumVals (_allocate_proportional sizes t th) = censusTotalOf sizes th := by
  unfold _allocate_proportional
  simp only []
  rw [if_pos hcase]
  exact sumVals_allocCensusOverride sizes th _ hpos hcase

theorem sumVals_allocate_target (sizes : List (ℤ × ℕ)) (t : ℤ) (th : ℕ)
    (hnd : (keysOf sizes).Nodup) (hpos : ∀ s ∈ sizes, 1 ≤ s.2)
    (hrem : 0 < t - (censusTotalOf sizes th : ℤ))
    (hN : t < (sumVals sizes : ℤ)) :
    (sumVals (_allocate_proportional sizes t th) : ℤ) = t := by
  have hsplit := census_noncensus_sum sizes th
  have hnct0 : nonCensusTotalOf sizes th ≠ 0 := by omega
  have hrlt : t - (censusTotalOf sizes th : ℤ) <
      (nonCensusTotalOf sizes th : ℤ) := by omega
  unfold _allocate_proportional
  simp only []
  rw [if_neg (by push_neg; exact ⟨by omega, hnct0⟩)]
  set r : ℤ := t - (censusTotalOf sizes th : ℤ) with hrdef
  set nct : ℕ := nonCensusTotalOf sizes th with hnctdef
  set ncl : List (ℤ × ℕ) := sizes.filter fun s => decide (¬ s.2 ≤ th) with hncldef
  set alloc : List (ℤ × ℕ) := allocFloored sizes th r nct with hallocdef
  set rem : List (ℤ × ℚ) := sortLe (fun a b => decide (b.2 ≤ a.2))
    (remaindersOf sizes th r nct) with hremdef
  set d : ℤ := t - (sumVals alloc : ℤ) with hddef
  set F : ℕ := (ncl.map fun s => flooredQuota r s.2 nct).sum with hFdef
  have hka : (keysOf alloc).Nodup := by
    rw [hallocdef, keysOf_allocFloored]
    exact hnd
  have hnclsum : (ncl.map (·.2)).sum = nct := by
    rw [hncldef, hnctdef]
    rfl
  have hremperm : rem.Perm (remaindersOf sizes th r nct) := by
    rw [hremdef]
    exact sortLe_perm _ _
  have helig : ∀ q ∈ rem, q.1 ∈ keysOf alloc ∧
      lookupAlloc alloc q.1 < lookupAlloc sizes q.1 := by
    intro q hq
    have hq' : q ∈ remaindersOf sizes th r nct := hremperm.mem_iff.mp hq
    rcases mem_remaindersOf hq' with ⟨s, hs, hcns, hq1⟩
    have hszpos : 0 < s.2 := hpos s hs
    have hfl := flooredQuota_lt hszpos hrem hrlt
    constructor
    · rw [hq1, hallocdef, keysOf_allocFloored]
      exact List.mem_map.mpr ⟨s, hs, rfl⟩
    · rw [hq1, hallocdef, lookupAlloc_allocFloored hnd hs hcns,
        lookupAlloc_self hnd hs]
      exact hfl.2
  have hknd : (rem.map (·.1)).Nodup := by
    have h1 : ((remaindersOf sizes th r nct).map (·.1)).Nodup := by
      rw [keys_remaindersOf]
      have hnd' : (sizes.map (·.1)).Nodup := hnd
      exact List.Nodup.sublist (List.Sublist.map _ (List.filter_sublist _)) hnd'
    exact ((hremperm.map (·.1)).nodup_iff).mpr h1
  have hFle : ((F : ℕ) : ℤ) ≤ r := by
    have hle : (ncl.map fun s => ((flooredQuota r s.2 nct : ℕ) : ℚ)).sum ≤
        (ncl.map fun s => exactQuota r s.2 nct).sum := by
      apply List.sum_le_sum
      intro s _
      exact flooredQuota_le_exact s.2 nct (le_of_lt hrem)
    rw [sum_exactQuota ncl r nct hnclsum hnct0,
      ← cast_sum_map ncl (fun s => flooredQuota r s.2 nct), ← hFdef] at hle
    exact_mod_cast hle
  have hFge : r - (ncl.length : ℤ) ≤ ((F : ℕ) : ℤ) := by
    have hle2 : (ncl.map fun s => exactQuota r s.2 nct).sum ≤
        (ncl.map fun s => ((flooredQuota r s.2 nct : ℕ) : ℚ) + 1).sum := by
      apply List.sum_le_sum
      intro s hsncl
      have hsncl' : s ∈ sizes.filter fun s => decide (¬ s.2 ≤ th) := by
        rw [← hncldef]
        exact hsncl
      have hsmem : s ∈ sizes := (List.mem_filter.mp hsncl').1
      have hszpos : 0 < s.2 := hpos s hsmem
      have heq := (flooredQuota_lt hszpos hrem hrlt).1
      rw [heq]
      have h0e := exactQuota_nonneg s.2 nct (le_of_lt hrem)
      exact le_of_lt (lt_toNat_floor_add_one _ h0e)
    rw [sum_exactQuota ncl r nct hnclsum hnct0,
      sum_map_add_q ncl (fun s => ((flooredQuota r s.2 nct : ℕ) : ℚ)) (fun _ => 1),
      sum_map_one_q,
      ← cast_sum_map ncl (fun s => flooredQuota r s.2 nct), ← hFdef] at hle2
    have hz : r ≤ ((F : ℕ) : ℤ) + (ncl.length : ℤ) := by exact_mod_cast hle2
    omega
  have hsum_alloc : sumVals alloc = censusTotalOf sizes th + F := by
    rw [hallocdef, sumVals_allocFloored, ← hncldef, ← hFdef]
  have hremlen : rem.length = ncl.length := by
    rw [hremdef, sortLe_length, length_remaindersOf, hncldef]
  have hd0 : 0 ≤ d := by
    rw [hddef, hsum_alloc]
    push_cast
    omega
  have hdle : d ≤ (rem.length : ℤ) := by
    rw [hddef, hsum_alloc, hremlen]
    push_cast
    omega
  rw [distribute_sum sizes rem alloc d hka helig hknd hd0 hdle]
  push_cast [Int.toNat_of_nonneg hd0]
  omega

theorem select_length (indices : List ℕ) (n : ℕ) (h : n ≤ indices.length) :
    (if indices.length ≤ n then indices
     else _systematic_select indices n).length = n := by
  by_cases hc : indices.length ≤ n
  · rw [if_pos hc]
    omega
  · rw [if_neg hc]
    unfold _systematic_select
    simp only []
    rw [if_neg hc]
    by_cases hn : n = 0
    · rw [if_pos hn, hn]
      rfl
    · rw [if_neg hn]
      rw [List.length_map, List.length_range]

theorem contribution_eq (strata : List (ℤ × List ℕ)) (alloc : List (ℤ × ℕ))
    (hnd : (keysOf strata).Nodup)
    (hle : ∀ y, lookupAlloc alloc y ≤
      lookupAlloc (strata.map fun g => (g.1, g.2.length)) y)
    (y : ℤ) (hy : y ∈ keysOf strata) :
    (if ((strata.lookup y).getD []).length ≤ lookupAlloc alloc y
     then (strata.lookup y).getD []
     else _systematic_select ((strata.lookup y).getD [])
       (lookupAlloc alloc y)).length = lookupAlloc alloc y := by
  rcases List.mem_map.mp hy with ⟨g, hg, hgy⟩
  have hgy' : g.1 = y := hgy
  have hm : (y, g.2) ∈ strata := by
    rw [← hgy', Prod.mk.eta]
    exact hg
  have hlk : strata.lookup y = some g.2 := lookup_eq_of_mem hnd hm
  have hnd2 : (keysOf (strata.map fun g => (g.1, g.2.length))).Nodup := by
    rw [keysOf_map_pair]
    exact hnd
  have hm2 : (y, g.2.length) ∈ strata.map fun s => (s.1, s.2.length) := by
    refine List.mem_map.mpr ⟨g, hg, ?_⟩
    rw [hgy']
  have hsz : lookupAlloc (strata.map fun g => (g.1, g.2.length)) y =
      g.2.length := by
    unfold lookupAlloc
    rw [lookup_eq_of_mem hnd2 hm2]
    rfl
  have hlen : lookupAlloc alloc y ≤ g.2.length := by
    have h := hle y
    rw [hsz] at h
    exact h
  rw [hlk]
  simp only [Option.getD_some]
  exact select_length g.2 (lookupAlloc alloc y) hlen

theorem sample_size_eq_sumVals (patent_data : List PItem) (t : ℤ) (th : ℕ)
    (h1 : 1 ≤ t) (h2 : t < (patent_data.length : ℤ)) :
    sampleSizeOf (stratified_sample patent_data t th) =
      sumVals (_allocate_proportional
        ((_group_by_year patent_data).map fun g => (g.1, g.2.length)) t th) := by
  have h3 : ¬ t < 1 := by omega
  have h4 : ¬ (patent_data.length : ℤ) ≤ t := by omega
  have hndstrata : (keysOf (_group_by_year patent_data)).Nodup :=
    group_by_year_nodup patent_data
  have hndsizes : (keysOf ((_group_by_year patent_data).map
      fun g => (g.1, g.2.length))).Nodup := by
    rw [keysOf_map_pair]
    exact hndstrata
  have hndalloc : (keysOf (_allocate_proportional
      ((_group_by_year patent_data).map fun g => (g.1, g.2.length)) t th)).Nodup := by
    rw [keysOf_allocate, keysOf_map_pair]
    exact hndstrata
  have hle := allocate_le
    ((_group_by_year patent_data).map fun g => (g.1, g.2.length)) t th hndsizes
  simp only [stratified_sample, h3, h4, if_false, sampleSizeOf]
  rw [List.length_map, List.length_flatten, List.map_map]
  have hpt : ∀ y ∈ sortLe (fun a b => decide (a ≤ b))
      ((_group_by_year patent_data).map (·.1)),
      (List.length ∘ fun y =>
        if (((_group_by_year patent_data).lookup y).getD []).length ≤
            lookupAlloc (_allocate_proportional
              ((_group_by_year patent_data).map fun g => (g.1, g.2.length)) t th) y
        then ((_group_by_year patent_data).lookup y).getD []
        else _systematic_select (((_group_by_year patent_data).lookup y).getD [])
          (lookupAlloc (_allocate_proportional
            ((_group_by_year patent_data).map fun g => (g.1, g.2.length)) t th) y)) y
        = lookupAlloc (_allocate_proportional
            ((_group_by_year patent_data).map fun g => (g.1, g.2.length)) t th) y := by
    intro y hy
    have hy' : y ∈ keysOf (_group_by_year patent_data) :=
      (sortLe_perm _ _).mem_iff.mp hy
    exact contribution_eq (_group_by_year patent_data) _ hndstrata hle y hy'
  rw [List.map_congr_left hpt]
  apply sum_lookup_perm hndalloc
  rw [keysOf_allocate, keysOf_map_pair]
  exact sortLe_perm _ _

/-- Claim C2: for every population and every `target_size` with
`1 ≤ target_size < population size`, `stratified_sample` returns
normally and its `sample_size` equals `target_size`, unless the total
census allocation (the total size of the strata with at most
`census_threshold` elements, which are taken in full) alone exceeds the
target, in which case `sample_size` equals the total census
allocation. -/
theorem C2_sample_size (patent_data : List PItem) (target_size : ℤ)
    (census_threshold : ℕ) (h1 : 1 ≤ target_size)
    (h2 : target_size < (patent_data.length : ℤ)) :
    raisesError (stratified_sample patent_data target_size census_threshold)
      = false ∧
    (sampleSizeOf (stratified_sample patent_data target_size census_threshold)
        : ℤ) =
      if target_size < (censusAllocationOf patent_data census_threshold : ℤ)
      then (censusAllocationOf patent_data census_threshold : ℤ)
      else target_size := by
  constructor
  · obtain ⟨r0, hr0⟩ :=
      stratified_sample_ok patent_data target_size census_threshold h1
    rw [hr0]
    rfl
  · rw [sample_size_eq_sumVals patent_data target_size census_threshold h1 h2]
    set sizes : List (ℤ × ℕ) :=
      (_group_by_year patent_data).map fun g => (g.1, g.2.length) with hsizesdef
    have hnd : (keysOf sizes).Nodup := by
      rw [hsizesdef, keysOf_map_pair]
      exact group_by_year_nodup patent_data
    have hpos : ∀ s ∈ sizes, 1 ≤ s.2 := by
      intro s hs
      rw [hsizesdef] at hs
      rcases List.mem_map.mp hs with ⟨g, hg, hgs⟩
      rw [← hgs]
      exact group_by_year_pos patent_data g hg
    have hsumsizes : sumVals sizes = patent_data.length := by
      rw [hsizesdef,
        sumVals_map_pair (_group_by_year patent_data) (fun g => g.2.length)]
      exact group_by_year_sum patent_data
    have hcensus : censusTotalOf sizes census_threshold =
        censusAllocationOf patent_data census_threshold := by
      rw [hsizesdef]
      rfl
    by_cases hcase : target_size <
        (censusAllocationOf patent_data census_threshold : ℤ)
    · rw [if_pos hcase]
      have hA : sumVals (_allocate_proportional sizes target_size
          census_threshold) = censusTotalOf sizes census_threshold := by
        apply sumVals_allocate_census sizes target_size census_threshold hpos
        left
        rw [hcensus]
        omega
      rw [hA, hcensus]
    · rw [if_neg hcase]
      push_neg at hcase
      rcases lt_or_eq_of_le hcase with hlt | heq
      · apply sumVals_allocate_target sizes target_size census_threshold hnd hpos
        · rw [hcensus]
          omega
        · rw [hsumsizes]
          exact h2
      · have hA : sumVals (_allocate_proportional sizes target_size
            census_threshold) = censusTotalOf sizes census_threshold := by
          apply sumVals_allocate_census sizes target_size census_threshold hpos
          left
          rw [hcensus]
          omega
        rw [hA, hcensus]
        omega

/-- Claim C2, witness: three patents in two years, target 2, census
threshold 0 (no census stratum), so the sample size is the target 2. -/
theorem C2_sample_size_witness :
    raisesError (stratified_sample
      [(["A"], 2020), (["B"], 2020), (["C"], 2021)] 2 0) = false ∧
    (sampleSizeOf (stratified_sample
      [(["A"], 2020), (["B"], 2020), (["C"], 2021)] 2 0) : ℤ) =
      if (2 : ℤ) < (censusAllocationOf
          [(["A"], 2020), (["B"], 2020), (["C"], 2021)] 0 : ℤ)
      then (censusAllocationOf
          [(["A"], 2020), (["B"], 2020), (["C"], 2021)] 0 : ℤ)
      else 2 :=
  C2_sample_size [(["A"], 2020), (["B"], 2020), (["C"], 2021)] 2 0
    (by decide) (by decide)

/-- Claim C10, witness: citation counts `[3, 1, 5]` are non-negative,
and the h-index (which is 2) is at most the number of papers. -/
theorem C10_h_index_witness :
    (∀ c ∈ [(3 : ℤ), 1, 5], 0 ≤ c) ∧
    _compute_h_index [(3 : ℤ), 1, 5] ≤ ([(3 : ℤ), 1, 5] : List ℤ).length :=
  ⟨by decide, (C10_h_index [(3 : ℤ), 1, 5] (by decide)).1⟩

end TiRadar
